import Mathlib

/-!
# SimpleVector (simple_vector.h): a shallow embedding

The class `SimpleVector<Type>` keeps three fields: the buffer `items_`
(an `ArrayPtr<Type>`), the logical length `size_` and the recorded
capacity `capacity_`.  The embedding keeps the same three fields.

* The buffer is a list with one entry per allocated slot, so its length is
  the number of slots really allocated; `capacity_` is only the number the
  vector records.
* `size_t` is taken to be 64 bits wide.  The only arithmetic in the source that
  can wrap is `capacity_ * 2`; it is computed modulo `2 ^ 64`.
* A read or write through the buffer at a slot that was never allocated is
  undefined behaviour in the source; here it is the result `Fault.badAccess`.
  `std::out_of_range` thrown by `At` is `Fault.outOfRange`.
* `PushBack` and `Insert` receive their item as `const Type&`.  The reference
  may name an element of the vector itself (`v.PushBack(v[0])`), so the item is a
  `ConstRef`: a value outside the vector, or a slot of its buffer.  When the
  vector releases its buffer a reference into it is left dangling, and a read
  through it, undefined behaviour in the source, is `Fault.danglingRead`.
* `PushBack` calls itself; the embedding counts nested calls with a fuel
  argument and reports `Fault.noFuel` when the count is exhausted.
* `std::move` over a range of elements is modelled as a copy of the values.
* Allocation (`new Type[n]`) is assumed to succeed.
* An iterator is modelled by its distance from `begin()`.
* A vector is a value.  Where a property speaks of two objects and of whose
  buffer a call can reach, `Store` lists the buffers in existence and an `Obj`
  names its buffer by a handle into the store.
-/

namespace SimpleVec

/-- Ways in which an operation of the embedding does not deliver a value. -/
inductive Fault where
  | outOfRange
  | badAccess
  | noFuel
  | danglingRead
deriving DecidableEq, Repr

/-- Number of values of `size_t`. -/
def sizeModulus : Nat := 2 ^ 64

/-- The product `capacity_ * 2` as computed on `size_t`. -/
def twice (c : Nat) : Nat := (c * 2) % sizeModulus

/-- Modelled from the spec: the buffer collaborator `ArrayPtr` (array_ptr.h is
not among the sources).  Read of slot `i` of a buffer, `items_[i]`; touching a
slot outside the allocated region is a fault. -/
def ArrayPtr.read {T : Type} (buf : List T) (i : Nat) : Except Fault T :=
  if h : i < buf.length then .ok (buf.get ⟨i, h⟩) else .error .badAccess

/-- Modelled from the spec: the buffer collaborator `ArrayPtr`.  Store into
slot `i` of a buffer, `items_[i] = x`. -/
def ArrayPtr.write {T : Type} (buf : List T) (i : Nat) (x : T) : Except Fault (List T) :=
  if i < buf.length then .ok (buf.set i x) else .error .badAccess

/-- Modelled from the spec: the buffer collaborator `ArrayPtr`, constructor
`ArrayPtr(size_t size)`: a buffer of exactly `n` slots.  The spec leaves the
content of a fresh slot open ("default-or-uninitialized"); it is the argument
`fresh`. -/
def ArrayPtr.alloc {T : Type} (fresh : T) (n : Nat) : List T := List.replicate n fresh

/-- The algorithms `std::copy` and `std::move` on raw pointers: the slots
`[first, last)` of `src` are stored into `dst` from slot `d` on.  In the source
the destination never starts inside the source range, so the result is the
block copy. -/
def copyRange {T : Type} (src : List T) (first last : Nat) (dst : List T) (d : Nat) :
    Except Fault (List T) :=
  if first ≤ last ∧ last ≤ src.length ∧ d + (last - first) ≤ dst.length then
    .ok (dst.take d ++ (src.drop first).take (last - first) ++ dst.drop (d + (last - first)))
  else .error .badAccess

/-- The algorithms `std::generate` with a constant generator and `std::fill`:
every slot of `[first, last)` receives `x`. -/
def fillRange {T : Type} (buf : List T) (first last : Nat) (x : T) : Except Fault (List T) :=
  if first ≤ last ∧ last ≤ buf.length then
    .ok (buf.take first ++ List.replicate (last - first) x ++ buf.drop last)
  else .error .badAccess

/-- What a parameter of type `const Type&` refers to while a member function
of a vector runs: an object outside the buffers of the vector (`val`), slot `k`
of the buffer the vector owns (`slot`), or a slot of a buffer that the vector
has released since the call began (`released`). -/
inductive ConstRef (T : Type) where
  | val (x : T)
  | slot (k : Nat)
  | released
deriving DecidableEq, Repr

/-- Read through a reference while the vector owns the buffer `buf`. -/
def ConstRef.read {T : Type} (buf : List T) : ConstRef T → Except Fault T
  | .val x => .ok x
  | .slot k => ArrayPtr.read buf k
  | .released => .error .danglingRead

/-- The reference after the vector has released the buffer it owned: an object
outside the vector is still there, a slot of the buffer is not. -/
def ConstRef.afterRelease {T : Type} : ConstRef T → ConstRef T
  | .val x => .val x
  | .slot _ => .released
  | .released => .released

/-- The three data members of `SimpleVector<Type>`. -/
structure SimpleVector (T : Type) where
  items_ : List T
  size_ : Nat
  capacity_ : Nat
deriving DecidableEq, Repr

namespace SimpleVector

variable {T : Type}

/-- `SimpleVector() noexcept = default`. -/
def empty : SimpleVector T := { items_ := [], size_ := 0, capacity_ := 0 }

/-- `explicit SimpleVector(size_t size)`: `size` slots are allocated and
`std::generate(begin(), end(), ...)` stores `Type()` into every one of them. -/
def sized [Inhabited T] (size : Nat) : Except Fault (SimpleVector T) := do
  let items ← fillRange (ArrayPtr.alloc (default : T) size) 0 size default
  pure { items_ := items, size_ := size, capacity_ := size }

/-- `SimpleVector(size_t size, const Type& value)`. -/
def sizedValue [Inhabited T] (size : Nat) (value : T) : Except Fault (SimpleVector T) := do
  let items ← fillRange (ArrayPtr.alloc (default : T) size) 0 size value
  pure { items_ := items, size_ := size, capacity_ := size }

/-- `GetSize`. -/
def GetSize (v : SimpleVector T) : Nat := v.size_

/-- `GetCapacity`. -/
def GetCapacity (v : SimpleVector T) : Nat := v.capacity_

/-- `IsEmpty`. -/
def IsEmpty (v : SimpleVector T) : Bool := v.size_ == 0

/-- `operator[]`. -/
def index (v : SimpleVector T) (i : Nat) : Except Fault T := ArrayPtr.read v.items_ i

/-- `At`. -/
def At (v : SimpleVector T) (i : Nat) : Except Fault T :=
  if i ≥ v.size_ then .error .outOfRange else ArrayPtr.read v.items_ i

/-- `swap(SimpleVector& other)`: the pair is (this, other) after the call. -/
def swap (a b : SimpleVector T) : SimpleVector T × SimpleVector T :=
  ({ items_ := b.items_, size_ := b.size_, capacity_ := b.capacity_ },
   { items_ := a.items_, size_ := a.size_, capacity_ := a.capacity_ })

/-- `Resize`. -/
def Resize [Inhabited T] (v : SimpleVector T) (new_size : Nat) : Except Fault (SimpleVector T) :=
  if new_size = v.size_ then pure v
  else if new_size < v.size_ then pure { v with size_ := new_size }
  else if new_size > v.size_ ∧ new_size ≤ v.capacity_ then do
    let items ← fillRange v.items_ v.size_ new_size default
    pure { v with items_ := items, size_ := new_size }
  else if new_size > v.capacity_ then do
    let new_size := max new_size (twice v.capacity_)
    let temp ← sized new_size
    let moved ← copyRange v.items_ 0 v.size_ temp.items_ 0
    pure (swap v { temp with items_ := moved }).1
  else pure v

/-- `Reserve`. -/
def Reserve [Inhabited T] (v : SimpleVector T) (new_capacity : Nat) :
    Except Fault (SimpleVector T) :=
  if new_capacity > v.capacity_ then do
    let temp ← sized new_capacity
    let moved ← copyRange v.items_ 0 v.size_ temp.items_ 0
    pure { items_ := moved, size_ := v.size_, capacity_ := temp.capacity_ }
  else pure v

/-- A reference held across `Resize(new_size)` on `v`: only the last branch,
`new_size > capacity_`, exchanges the buffer with `temp`, whose destruction
releases the buffer the vector owned. -/
def refAfterResize (v : SimpleVector T) (new_size : Nat) (r : ConstRef T) : ConstRef T :=
  if new_size = v.size_ then r
  else if new_size < v.size_ then r
  else if new_size > v.size_ ∧ new_size ≤ v.capacity_ then r
  else if new_size > v.capacity_ then r.afterRelease
  else r

/-- A reference held across `Reserve(new_capacity)` on `v`: in the branch
`new_capacity > capacity_` the buffer the vector owned ends in `temp` and is
released with it. -/
def refAfterReserve (v : SimpleVector T) (new_capacity : Nat) (r : ConstRef T) : ConstRef T :=
  if new_capacity > v.capacity_ then r.afterRelease else r

/-- `PushBack(const Type& item)`; `fuel` bounds the depth of the nested calls.
`item` is read where the source reads it, in `items_[size_] = item`, after any
`Reserve` of the same call. -/
def PushBack [Inhabited T] : Nat → SimpleVector T → ConstRef T → Except Fault (SimpleVector T)
  | 0, _, _ => .error .noFuel
  | fuel + 1, v, item => do
    let item := if v.capacity_ = 0 then refAfterReserve v 1 item else item
    let v ← if v.capacity_ = 0 then Reserve v 1 else pure v
    if v.size_ < v.capacity_ then do
      let x ← item.read v.items_
      let items ← ArrayPtr.write v.items_ v.size_ x
      pure { v with items_ := items, size_ := v.size_ + 1 }
    else if v.size_ = v.capacity_ then do
      let w ← Reserve v (twice v.capacity_)
      PushBack fuel w (refAfterReserve v (twice v.capacity_) item)
    else pure v

/-- `Insert(ConstIterator pos, const Type& value)` with `index` the distance
of `pos` from `cbegin()`; the second component is the distance of the returned
iterator from `begin()`.  `value` is read where the source reads it, in
`temp[index] = value` or inside `PushBack(value)`, after the growth step. -/
def Insert [Inhabited T] (fuel : Nat) (v : SimpleVector T) (index : Nat) (value : ConstRef T) :
    Except Fault (SimpleVector T × Nat) := do
  let value :=
    if v.size_ = v.capacity_ then refAfterResize v (twice v.capacity_) value else value
  let v ← if v.size_ = v.capacity_ then do
      let temp_size := v.size_
      let w ← Resize v (twice v.capacity_)
      pure { w with size_ := temp_size }
    else pure v
  if v.size_ = index then do
    let w ← PushBack fuel v value
    pure (w, index)
  else do
    let temp : SimpleVector T ← sized v.capacity_
    let t1 ← copyRange v.items_ 0 index temp.items_ 0
    let x ← value.read v.items_
    let t2 ← ArrayPtr.write t1 index x
    let t3 ← copyRange v.items_ index v.size_ t2 (index + 1)
    pure ({ v with items_ := t3, size_ := v.size_ + 1 }, index)

/-- `PopBack`. -/
def PopBack (v : SimpleVector T) : SimpleVector T :=
  if v.size_ = 0 then v else { v with size_ := v.size_ - 1 }

/-- `Erase(ConstIterator pos)` with `index` the distance of `pos` from
`cbegin()`.  The range moved is `[begin() + index + 1, end())`, which is a
range only when `index + 1 ≤ size_`, so `--size_` does not wrap. -/
def Erase (v : SimpleVector T) (index : Nat) : Except Fault (SimpleVector T × Nat) := do
  let items ← copyRange v.items_ (index + 1) v.size_ v.items_ index
  pure ({ v with items_ := items, size_ := v.size_ - 1 }, index)

/-- `Clear`. -/
def Clear [Inhabited T] (v : SimpleVector T) : Except Fault (SimpleVector T) := Resize v 0

/-- `std::equal(first1, last1, first2, last2)` over the ranges `[0, n1)` of
`b1` and `[0, n2)` of `b2`.  Both ranges are required to lie inside their
buffers, also when the comparison could stop at an earlier mismatch. -/
def rangeEqual [DecidableEq T] (b1 : List T) (n1 : Nat) (b2 : List T) (n2 : Nat) :
    Except Fault Bool :=
  if n1 ≤ b1.length ∧ n2 ≤ b2.length then pure (decide (b1.take n1 = b2.take n2))
  else .error .badAccess

/-- `operator==`; `same` tells whether the two operands are one object
(`&lhs == &rhs`). -/
def opEq [DecidableEq T] (same : Bool) (lhs rhs : SimpleVector T) : Except Fault Bool :=
  if same then pure true
  else if lhs.GetSize = rhs.GetSize then rangeEqual lhs.items_ lhs.size_ rhs.items_ rhs.size_
  else pure false

/-- `operator!=`. -/
def opNe [DecidableEq T] (same : Bool) (lhs rhs : SimpleVector T) : Except Fault Bool := do
  let e ← opEq same lhs rhs
  pure (!e)

/-- `operator=(const SimpleVector& rhs)` for two different objects; the pair
is (this, rhs) after the call. -/
def copyAssign [Inhabited T] [DecidableEq T] (a b : SimpleVector T) :
    Except Fault (SimpleVector T × SimpleVector T) := do
  if (← opNe false a b) then do
    let a1 ← Resize a b.size_
    let items ← copyRange b.items_ 0 b.size_ a1.items_ 0
    pure ({ a1 with items_ := items }, b)
  else pure (a, b)

/-- `operator=(SimpleVector&& rhs)` for two different objects; `rhs` is a named
reference inside the body, so `swap(rhs)` is the overload `swap(SimpleVector&)`.
The pair is (this, rhs) after the call. -/
def moveAssign [DecidableEq T] (a b : SimpleVector T) :
    Except Fault (SimpleVector T × SimpleVector T) := do
  if (← opNe false a b) then pure (swap a b) else pure (a, b)

/-- `operator=(SimpleVector&& rhs)` with the object itself as right-hand
side. -/
def moveAssignSelf [DecidableEq T] (a : SimpleVector T) : Except Fault (SimpleVector T) := do
  if (← opNe true a a) then pure (swap a a).1 else pure a

/-- `SimpleVector(const SimpleVector& other)`: a new buffer of
`other.capacity_` slots receives the elements `[other.begin(), other.end())`;
the slots from `other.size_` on keep the content `fresh` of the allocation. -/
def copyConstruct (fresh : T) (other : SimpleVector T) : Except Fault (SimpleVector T) := do
  let items ← copyRange other.items_ 0 other.size_ (ArrayPtr.alloc fresh other.capacity_) 0
  pure { items_ := items, size_ := other.size_, capacity_ := other.capacity_ }

/-- `SimpleVector(SimpleVector&& other)`: the new object starts from the
default member initialisers and calls `swap(other)`; `other` is a named
reference, so this is `swap(SimpleVector&)`.  The pair is (this, other). -/
def moveConstruct (other : SimpleVector T) : SimpleVector T × SimpleVector T :=
  swap empty other

/-- `SimpleVector(std::initializer_list<Type> init)`: the elements are copied
into a second allocation `temp`, which is then exchanged with `items_`. -/
def fromList (fresh : T) (init : List T) : Except Fault (SimpleVector T) := do
  let temp ← copyRange init 0 init.length (ArrayPtr.alloc fresh init.length) 0
  pure { items_ := temp, size_ := init.length, capacity_ := init.length }

/-- `SimpleVector(ReserveProxyObj obj)`: `Reserve(obj.capacity_)` on the
default-initialised object. -/
def ofReserve [Inhabited T] (capacity_to_reserve : Nat) : Except Fault (SimpleVector T) :=
  Reserve empty capacity_to_reserve

/-- `swap(SimpleVector&& other)`: the elements of `other` are moved into the
buffer of this object, then the sizes and the recorded capacities are
exchanged; the buffers are not.  The pair is (this, other) after the call. -/
def swapRvalue (a b : SimpleVector T) : Except Fault (SimpleVector T × SimpleVector T) := do
  let items ← copyRange b.items_ 0 b.size_ a.items_ 0
  pure ({ items_ := items, size_ := b.size_, capacity_ := b.capacity_ },
        { items_ := b.items_, size_ := a.size_, capacity_ := a.capacity_ })

/-- Element assignment `v[i] = x` through `operator[]`. -/
def assignAt (v : SimpleVector T) (i : Nat) (x : T) : Except Fault (SimpleVector T) := do
  let items ← ArrayPtr.write v.items_ i x
  pure { v with items_ := items }

/-- The algorithm `std::lexicographical_compare` on two ranges given as lists:
the loop runs while both ranges have elements, returns at the first pair with
`x < y` or `y < x`, and otherwise answers whether the first range ended and the
second did not. -/
def lexicographical_compare [LT T] [DecidableRel (fun x y : T => x < y)] :
    List T → List T → Bool
  | x :: xs, y :: ys =>
    if x < y then true else if y < x then false else lexicographical_compare xs ys
  | [], _ :: _ => true
  | _, [] => false

/-- `operator<`. -/
def opLt [LT T] [DecidableRel (fun x y : T => x < y)] (lhs rhs : SimpleVector T) :
    Except Fault Bool :=
  if lhs.size_ ≤ lhs.items_.length ∧ rhs.size_ ≤ rhs.items_.length then
    pure (lexicographical_compare (lhs.items_.take lhs.size_) (rhs.items_.take rhs.size_))
  else .error .badAccess

/-- The call sequence `PushBack(x_1); ...; PushBack(x_k)`; a `slot` among the
items names an element of the vector as it is when that call is made. -/
def pushAll [Inhabited T] (fuel : Nat) (v : SimpleVector T) :
    List (ConstRef T) → Except Fault (SimpleVector T)
  | [] => pure v
  | x :: xs => do
    let w ← PushBack fuel v x
    pushAll fuel w xs

/-- The logical sequence of a vector: the values in the range
`[begin(), end())`, that is the slots `0 .. size_ - 1` of the buffer. -/
def toList (v : SimpleVector T) : List T := v.items_.take v.size_

/-- A well-formed vector: the length is at most the recorded capacity, and the
buffer has at least as many slots as the recorded capacity. -/
def Valid (v : SimpleVector T) : Prop :=
  v.size_ ≤ v.capacity_ ∧ v.capacity_ ≤ v.items_.length

instance (v : SimpleVector T) : Decidable (Valid v) :=
  inferInstanceAs (Decidable (_ ∧ _))

/-- The shape of a vector filled by `PushBack` alone, starting from the
default-constructed one: valid, of capacity 0 while empty, and afterwards of a
capacity that is a power of two below twice the size. -/
def Doubled (v : SimpleVector T) : Prop :=
  Valid v ∧ (v.size_ = 0 → v.capacity_ = 0)
    ∧ (0 < v.size_ → ∃ m, v.capacity_ = 2 ^ m ∧ v.capacity_ < 2 * v.size_)

/-- Lexicographic order of two sequences in the words of the specification:
the first sequence is a proper prefix of the second, or at the first position
where the two differ the element of the first is the smaller one. -/
def lexLess [LT T] : List T → List T → Prop
  | [], [] => False
  | [], _ :: _ => True
  | _ :: _, [] => False
  | x :: xs, y :: ys => x < y ∨ (x = y ∧ lexLess xs ys)

/-- The mutations of a vector named in the specification of copying. -/
inductive Mutation (T : Type) where
  | pushBack (item : ConstRef T)
  | insert (idx : Nat) (value : ConstRef T)
  | erase (idx : Nat)
  | resize (n : Nat)
  | assign (i : Nat) (x : T)

/-- The member function call a `Mutation` stands for. -/
def Mutation.run [Inhabited T] (fuel : Nat) : Mutation T → SimpleVector T →
    Except Fault (SimpleVector T)
  | .pushBack item, v => PushBack fuel v item
  | .insert idx value, v => do
    let r ← Insert fuel v idx value
    pure r.1
  | .erase idx, v => do
    let r ← Erase v idx
    pure r.1
  | .resize n, v => Resize v n
  | .assign i x, v => assignAt v i x

end SimpleVector

/-- A vector object as it lies in memory: `items_` is the handle of the buffer
that its `ArrayPtr` owns, an index into the `Store`. -/
structure Obj where
  items_ : Nat
  size_ : Nat
  capacity_ : Nat
deriving DecidableEq, Repr

/-- Modelled from the spec: the buffers in existence, one entry per owning
`ArrayPtr` (array_ptr.h is not among the sources; the spec gives a buffer one
exclusive owner and no way to share it).  A new entry appears only by an
allocation. -/
structure Store (T : Type) where
  bufs : List (List T)

/-- The vector an object denotes: its buffer looked up in the store, with its
size and recorded capacity. -/
def Store.deref {T : Type} (s : Store T) (o : Obj) : Except Fault (SimpleVector T) :=
  if h : o.items_ < s.bufs.length then
    .ok { items_ := s.bufs.get ⟨o.items_, h⟩, size_ := o.size_, capacity_ := o.capacity_ }
  else .error .badAccess

/-- The copy constructor run in a store: `items_(other.capacity_)` is a new
allocation, so the buffer of the new object is a new entry of the store. -/
def Store.copyConstruct {T : Type} (fresh : T) (s : Store T) (other : Obj) :
    Except Fault (Store T × Obj) := do
  let o ← s.deref other
  let c ← SimpleVector.copyConstruct fresh o
  pure ({ bufs := s.bufs ++ [c.items_] },
        { items_ := s.bufs.length, size_ := c.size_, capacity_ := c.capacity_ })

/-- A member function `f` called on the object `o` in a store: the function
reaches memory through `o.items_` and through temporaries it allocates and
releases itself, so afterwards only the buffer owned by `o` can differ. -/
def Store.call {T : Type} (f : SimpleVector T → Except Fault (SimpleVector T)) (s : Store T)
    (o : Obj) : Except Fault (Store T × Obj) := do
  let v ← s.deref o
  let w ← f v
  pure ({ bufs := s.bufs.set o.items_ w.items_ },
        { items_ := o.items_, size_ := w.size_, capacity_ := w.capacity_ })

deriving instance DecidableEq for Except

/-! ## Auxiliary facts about the buffer algorithms -/

section Aux

variable {T : Type}

open SimpleVector

theorem fillRange_ok (buf : List T) (first last : Nat) (x : T)
    (h1 : first ≤ last) (h2 : last ≤ buf.length) :
    fillRange buf first last x
      = .ok (buf.take first ++ List.replicate (last - first) x ++ buf.drop last) := by
  simp [fillRange, h1, h2]

theorem copyRange_ok (src : List T) (first last : Nat) (dst : List T) (d : Nat)
    (h1 : first ≤ last) (h2 : last ≤ src.length) (h3 : d + (last - first) ≤ dst.length) :
    copyRange src first last dst d
      = .ok (dst.take d ++ (src.drop first).take (last - first)
              ++ dst.drop (d + (last - first))) := by
  simp [copyRange, h1, h2, h3]

theorem copyRange_front (src dst : List T) (k : Nat)
    (h2 : k ≤ src.length) (h3 : k ≤ dst.length) :
    copyRange src 0 k dst 0 = .ok (src.take k ++ dst.drop k) := by
  simp [copyRange, h2, h3]

theorem write_ok (buf : List T) (i : Nat) (x : T) (h : i < buf.length) :
    ArrayPtr.write buf i x = .ok (buf.set i x) := by
  simp [ArrayPtr.write, h]

theorem read_ok (buf : List T) (i : Nat) (h : i < buf.length) :
    ArrayPtr.read buf i = .ok (buf.get ⟨i, h⟩) := by
  simp [ArrayPtr.read, h]

theorem sized_ok [Inhabited T] (n : Nat) :
    sized n = .ok ({ items_ := List.replicate n default, size_ := n, capacity_ := n } :
      SimpleVector T) := by
  simp [sized, fillRange, ArrayPtr.alloc, bind, Except.bind, pure, Except.pure]

theorem sizedValue_ok [Inhabited T] (n : Nat) (x : T) :
    sizedValue n x = .ok ({ items_ := List.replicate n x, size_ := n, capacity_ := n } :
      SimpleVector T) := by
  simp [sizedValue, fillRange, ArrayPtr.alloc, bind, Except.bind, pure, Except.pure]

theorem twice_eq (c : Nat) (h : c < 2 ^ 63) : twice c = 2 * c := by
  unfold twice sizeModulus
  rw [Nat.mod_eq_of_lt] <;> omega

theorem toList_length (v : SimpleVector T) (h : v.size_ ≤ v.items_.length) :
    (toList v).length = v.size_ := by
  simp [toList, h]

theorem At_toList (v : SimpleVector T) (i : Nat) (h : v.size_ ≤ v.items_.length)
    (hi : i < v.size_) : At v i = .ok ((toList v).get ⟨i, by rw [toList_length v h]; exact hi⟩) := by
  have hl : i < v.items_.length := by omega
  have hn : ¬ v.size_ ≤ i := by omega
  simp [At, toList, ArrayPtr.read, hn, hl, List.getElem_take]

end Aux

section Ops
variable {T : Type}
open SimpleVector

theorem Resize_same [Inhabited T] (v : SimpleVector T) : Resize v v.size_ = .ok v := by
  simp [Resize, pure, Except.pure]

theorem Resize_shrink [Inhabited T] (v : SimpleVector T) (n : Nat) (h : n < v.size_) :
    Resize v n = .ok { v with size_ := n } := by
  have h1 : n ≠ v.size_ := by omega
  simp [Resize, h, h1, pure, Except.pure]

theorem Resize_fill [Inhabited T] (v : SimpleVector T) (n : Nat) (h1 : v.size_ < n)
    (h2 : n ≤ v.capacity_) (h3 : v.capacity_ ≤ v.items_.length) :
    Resize v n = .ok { v with
      items_ := v.items_.take v.size_ ++ List.replicate (n - v.size_) default ++ v.items_.drop n,
      size_ := n } := by
  have e1 : n ≠ v.size_ := by omega
  have e2 : ¬ n < v.size_ := by omega
  have e3 : v.size_ ≤ n := by omega
  have e4 : n ≤ v.items_.length := by omega
  simp [Resize, e1, e2, h1, h2, fillRange_ok _ _ _ _ e3 e4, bind, Except.bind, pure, Except.pure]

theorem Resize_grow [Inhabited T] (v : SimpleVector T) (n : Nat) (h1 : v.size_ ≤ v.capacity_)
    (h2 : v.size_ ≤ v.items_.length) (h3 : v.capacity_ < n) :
    Resize v n = .ok {
      items_ := v.items_.take v.size_
        ++ List.replicate (max n (twice v.capacity_) - v.size_) default,
      size_ := max n (twice v.capacity_),
      capacity_ := max n (twice v.capacity_) } := by
  have e1 : n ≠ v.size_ := by omega
  have e2 : ¬ n < v.size_ := by omega
  have e3 : ¬ n ≤ v.capacity_ := by omega
  have e4 : v.size_ ≤ max n (twice v.capacity_) := by
    have := le_max_left n (twice v.capacity_); omega
  simp [Resize, e1, e2, e3, h3, sized_ok, swap, bind, Except.bind, pure, Except.pure,
    copyRange_front _ _ _ h2, e4]

theorem Reserve_keep [Inhabited T] (v : SimpleVector T) (c : Nat) (h : c ≤ v.capacity_) :
    Reserve v c = .ok v := by
  have e : ¬ c > v.capacity_ := by omega
  simp [Reserve, e, pure, Except.pure]

theorem Reserve_grow [Inhabited T] (v : SimpleVector T) (c : Nat) (h1 : v.size_ ≤ v.capacity_)
    (h2 : v.size_ ≤ v.items_.length) (h3 : v.capacity_ < c) :
    Reserve v c = .ok {
      items_ := v.items_.take v.size_ ++ List.replicate (c - v.size_) default,
      size_ := v.size_,
      capacity_ := c } := by
  have e4 : v.size_ ≤ c := by omega
  simp [Reserve, h3, sized_ok, bind, Except.bind, pure, Except.pure,
    copyRange_front _ _ _ h2, e4]

end Ops

section Push
variable {T : Type}
open SimpleVector

theorem refAfterReserve_val (v : SimpleVector T) (c : Nat) (x : T) :
    refAfterReserve v c (.val x) = .val x := by
  unfold refAfterReserve
  split <;> rfl

theorem refAfterResize_val (v : SimpleVector T) (n : Nat) (x : T) :
    refAfterResize v n (.val x) = .val x := by
  unfold refAfterResize
  repeat' split
  all_goals rfl

/-- `PushBack` on a vector with a free slot: nothing is reserved, so the item
may also be an element of the vector itself. -/
theorem PushBack_direct [Inhabited T] (fuel : Nat) (v : SimpleVector T) (item : ConstRef T)
    (x : T) (hx : item.read v.items_ = .ok x)
    (h1 : v.size_ < v.capacity_) (h2 : v.capacity_ ≤ v.items_.length) :
    PushBack (fuel + 1) v item
      = .ok { v with items_ := v.items_.set v.size_ x, size_ := v.size_ + 1 } := by
  have e1 : v.capacity_ ≠ 0 := by omega
  have e2 : v.size_ < v.items_.length := by omega
  simp [PushBack, e1, h1, hx, write_ok _ _ _ e2, bind, Except.bind, pure, Except.pure]

theorem PushBack_zero [Inhabited T] (fuel : Nat) (v : SimpleVector T) (x : T)
    (h1 : v.size_ = 0) (h2 : v.capacity_ = 0) :
    PushBack (fuel + 1) v (.val x) = .ok { items_ := [x], size_ := 1, capacity_ := 1 } := by
  have e1 : v.size_ ≤ v.capacity_ := by omega
  have e2 : v.size_ ≤ v.items_.length := by omega
  have e3 : v.capacity_ < 1 := by omega
  simp [PushBack, h2, Reserve_grow v 1 e1 e2 e3, h1, ArrayPtr.write, refAfterReserve_val,
    ConstRef.read, bind, Except.bind, pure, Except.pure]

theorem PushBack_full [Inhabited T] (fuel : Nat) (v : SimpleVector T) (x : T)
    (h0 : 0 < v.capacity_) (h1 : v.size_ = v.capacity_) (h2 : v.capacity_ ≤ v.items_.length)
    (h3 : v.capacity_ < 2 ^ 63) :
    PushBack (fuel + 2) v (.val x)
      = .ok { items_ := v.items_.take v.size_ ++ x :: List.replicate (v.capacity_ - 1) default,
              size_ := v.size_ + 1,
              capacity_ := 2 * v.capacity_ } := by
  have e1 : v.capacity_ ≠ 0 := by omega
  have e2 : ¬ v.size_ < v.capacity_ := by omega
  have e3 : v.size_ ≤ v.capacity_ := by omega
  have e4 : v.size_ ≤ v.items_.length := by omega
  have e5 : v.capacity_ < twice v.capacity_ := by rw [twice_eq _ h3]; omega
  rw [PushBack]
  simp only [e1, if_false, e2, h1, if_true, bind, Except.bind, pure, Except.pure,
    refAfterReserve_val]
  rw [Reserve_grow v _ e3 e4 e5]
  simp only []
  rw [PushBack_direct fuel _ (.val x) x rfl]
  · rw [twice_eq _ h3]
    have e6 : 2 * v.capacity_ - v.size_ = (v.capacity_ - 1) + 1 := by omega
    have e7 : 2 * v.capacity_ - v.capacity_ = (v.capacity_ - 1) + 1 := by omega
    have e8 : v.capacity_ - min v.capacity_ v.items_.length = 0 := by
      rw [Nat.min_eq_left h2]; omega
    simp [h1, List.set_append, e7, e8, List.replicate_succ]
  · simp; omega
  · simp; rw [twice_eq _ h3]; omega

end Push

section Assign
variable {T : Type}
open SimpleVector

theorem opEq_distinct [DecidableEq T] (a b : SimpleVector T)
    (ha : a.size_ ≤ a.items_.length) (hb : b.size_ ≤ b.items_.length) :
    opEq false a b = .ok (decide (toList a = toList b)) := by
  by_cases hs : a.size_ = b.size_
  · simp [opEq, GetSize, hs, rangeEqual, hb, toList, pure, Except.pure]
    rw [← hs]; simp [ha]
  · have hne : toList a ≠ toList b := by
      intro h
      have := congrArg List.length h
      rw [toList_length a ha, toList_length b hb] at this
      exact hs this
    simp [opEq, GetSize, hs, hne, pure, Except.pure]

end Assign

/-- C1, evaluated on the scenario of the claim: `SimpleVector(5, 7)` followed by
`Resize(3)` and `Resize(6)` ends with size 10 (and capacity 10), not 6: the
growing branch of `Resize` stores `max(new_size, capacity_ * 2)` as the size. -/
theorem Resize_scenario_size_ten :
    (do let v ← SimpleVector.sizedValue 5 (7 : Int)
        let v ← SimpleVector.Resize v 3
        SimpleVector.Resize v 6)
      = Except.ok { items_ := [7, 7, 7, 0, 0, 0, 0, 0, 0, 0], size_ := 10, capacity_ := 10 } := by
  decide

/-- C2, evaluated where the right-hand side is longer than the capacity of the
left-hand side: a vector of size 3 and capacity 3 assigned `[1, 2, 3, 4]` ends
with size 6 and elements `[1, 2, 3, 4, 0, 0]`, so its size differs from the size
4 of the right-hand side. -/
theorem copyAssign_scenario_size_six :
    (do let a ← SimpleVector.sized 3
        SimpleVector.copyAssign a { items_ := [1, 2, 3, 4], size_ := 4, capacity_ := 4 })
      = Except.ok
          (({ items_ := [1, 2, 3, 4, 0, 0], size_ := 6, capacity_ := 6 } : SimpleVector Int),
           { items_ := [1, 2, 3, 4], size_ := 4, capacity_ := 4 }) := by
  decide

/-- C3 fails for two different objects with equal contents: an empty vector of
capacity 10 move-assigned from a default-constructed vector keeps its capacity
10, and the right-hand side keeps capacity 0; nothing is exchanged. -/
theorem moveAssign_equal_contents_not_exchanged :
    (do let a ← SimpleVector.Reserve (SimpleVector.empty : SimpleVector Int) 10
        SimpleVector.moveAssign a SimpleVector.empty)
      = Except.ok
          (({ items_ := [0, 0, 0, 0, 0, 0, 0, 0, 0, 0], size_ := 0, capacity_ := 10 } :
              SimpleVector Int),
           { items_ := [], size_ := 0, capacity_ := 0 })
    ∧ SimpleVector.moveAssign
          ({ items_ := [0, 0, 0, 0, 0, 0, 0, 0, 0, 0], size_ := 0, capacity_ := 10 } :
              SimpleVector Int) SimpleVector.empty
        ≠ Except.ok (SimpleVector.empty,
            { items_ := [0, 0, 0, 0, 0, 0, 0, 0, 0, 0], size_ := 0, capacity_ := 10 }) := by
  decide

/-- C3 as amended: for two different objects whose ranges `[begin(), end())`
lie inside their buffers, move assignment exchanges the complete states
(buffer, size, capacity) when the logical sequences differ, and changes
neither object when the logical sequences are equal; move assignment of an
object to itself changes nothing. -/
theorem moveAssign_exchanges_iff_sequences_differ {T : Type} [DecidableEq T]
    (a b : SimpleVector T)
    (ha : a.size_ ≤ a.items_.length) (hb : b.size_ ≤ b.items_.length) :
    (a.toList ≠ b.toList → SimpleVector.moveAssign a b = .ok (b, a))
    ∧ (a.toList = b.toList → SimpleVector.moveAssign a b = .ok (a, b))
    ∧ SimpleVector.moveAssignSelf a = .ok a := by
  refine ⟨fun h => ?_, fun h => ?_, ?_⟩
  · simp [SimpleVector.moveAssign, SimpleVector.opNe, opEq_distinct a b ha hb, h,
      SimpleVector.swap, bind, Except.bind, pure, Except.pure]
  · simp [SimpleVector.moveAssign, SimpleVector.opNe, opEq_distinct a b ha hb, h,
      bind, Except.bind, pure, Except.pure]
  · simp [SimpleVector.moveAssignSelf, SimpleVector.opNe, SimpleVector.opEq, bind, Except.bind,
      pure, Except.pure]

theorem moveAssign_exchanges_iff_sequences_differ_witness :
    (SimpleVector.moveAssign
        ({ items_ := [1, 2, 0, 0], size_ := 2, capacity_ := 4 } : SimpleVector Int)
        { items_ := [5], size_ := 1, capacity_ := 1 }
      = .ok ({ items_ := [5], size_ := 1, capacity_ := 1 },
             { items_ := [1, 2, 0, 0], size_ := 2, capacity_ := 4 }))
    ∧ (SimpleVector.moveAssign
        ({ items_ := [1, 2, 0, 0], size_ := 2, capacity_ := 4 } : SimpleVector Int)
        { items_ := [1, 2], size_ := 2, capacity_ := 2 }
      = .ok ({ items_ := [1, 2, 0, 0], size_ := 2, capacity_ := 4 },
             { items_ := [1, 2], size_ := 2, capacity_ := 2 })) :=
  ⟨(moveAssign_exchanges_iff_sequences_differ
      ({ items_ := [1, 2, 0, 0], size_ := 2, capacity_ := 4 } : SimpleVector Int)
      { items_ := [5], size_ := 1, capacity_ := 1 } (by decide) (by decide)).1 (by decide),
   (moveAssign_exchanges_iff_sequences_differ
      ({ items_ := [1, 2, 0, 0], size_ := 2, capacity_ := 4 } : SimpleVector Int)
      { items_ := [1, 2], size_ := 2, capacity_ := 2 } (by decide) (by decide)).2.1 (by decide)⟩

section PushSpec
variable {T : Type}
open SimpleVector

theorem take_set_self (l : List T) (n : Nat) (a : T) : (l.set n a).take n = l.take n := by
  rw [List.set_take]
  apply List.set_eq_of_length_le
  simp

/-- What one `PushBack` of an item outside the vector does to a valid vector. -/
theorem PushBack_spec [Inhabited T] (fuel : Nat) (v : SimpleVector T) (x : T)
    (hv : Valid v) (hc : v.size_ = v.capacity_ → v.capacity_ < 2 ^ 63) :
    ∃ w, PushBack (fuel + 2) v (.val x) = .ok w ∧ Valid w ∧ w.size_ = v.size_ + 1
      ∧ toList w = toList v ++ [x]
      ∧ w.capacity_ = (if v.size_ < v.capacity_ then v.capacity_
                        else if v.capacity_ = 0 then 1 else 2 * v.capacity_) := by
  obtain ⟨h1, h2⟩ := hv
  by_cases hlt : v.size_ < v.capacity_
  · refine ⟨_, PushBack_direct (fuel + 1) v (.val x) x rfl hlt h2, ?_, rfl, ?_, ?_⟩
    · constructor <;> simp <;> omega
    · have : v.size_ < v.items_.length := by omega
      simp [toList, List.take_succ, take_set_self, this]
    · simp [hlt]
  · have heq : v.size_ = v.capacity_ := by omega
    by_cases h0 : v.capacity_ = 0
    · refine ⟨_, PushBack_zero (fuel + 1) v x (by omega) h0, ?_, ?_, ?_, ?_⟩
      · constructor <;> simp
      · simp; omega
      · simp [toList]; omega
      · simp [hlt, h0]
    · refine ⟨_, PushBack_full fuel v x (by omega) heq h2 (hc heq), ?_, rfl, ?_, ?_⟩
      · constructor <;> simp <;> omega
      · have e : v.size_ ≤ v.items_.length := by omega
        simp [toList, List.take_append_eq_append_take, e]
      · simp [hlt, h0]

end PushSpec

section PushAll
variable {T : Type}
open SimpleVector

theorem Doubled_PushBack [Inhabited T] (fuel : Nat) (v : SimpleVector T) (x : T)
    (hd : Doubled v) (hk : v.size_ < 2 ^ 63) :
    ∃ w, PushBack (fuel + 2) v (.val x) = .ok w ∧ Doubled w ∧ w.size_ = v.size_ + 1
      ∧ toList w = toList v ++ [x] := by
  obtain ⟨hv, hz, hp⟩ := hd
  obtain ⟨w, hw, hvw, hs, hl, hcap⟩ := PushBack_spec fuel v x hv (fun h => by omega)
  refine ⟨w, hw, ⟨hvw, by omega, fun _ => ?_⟩, hs, hl⟩
  by_cases hlt : v.size_ < v.capacity_
  · have hpos : 0 < v.size_ := by
      rcases Nat.eq_zero_or_pos v.size_ with h | h
      · have := hz h; omega
      · exact h
    obtain ⟨m, hm, hlt2⟩ := hp hpos
    refine ⟨m, ?_, ?_⟩
    · rw [hcap, if_pos hlt, hm]
    · rw [hcap, if_pos hlt]; omega
  · rw [if_neg hlt] at hcap
    by_cases h0 : v.capacity_ = 0
    · rw [if_pos h0] at hcap
      exact ⟨0, by simp [hcap], by omega⟩
    · rw [if_neg h0] at hcap
      have hpos : 0 < v.size_ := by have := hv.1; omega
      obtain ⟨m, hm, _⟩ := hp hpos
      refine ⟨m + 1, ?_, ?_⟩
      · rw [hcap, hm, pow_succ]; omega
      · have := hv.1; omega

theorem pushAll_Doubled [Inhabited T] (fuel : Nat) (xs : List T) :
    ∀ v : SimpleVector T, Doubled v → v.size_ + xs.length ≤ 2 ^ 63 →
      ∃ w, pushAll (fuel + 2) v (xs.map ConstRef.val) = .ok w ∧ Doubled w
        ∧ w.size_ = v.size_ + xs.length
        ∧ toList w = toList v ++ xs := by
  induction xs with
  | nil =>
    intro v hd _
    exact ⟨v, rfl, hd, by simp, by simp⟩
  | cons x xs ih =>
    intro v hd hk
    simp only [List.length_cons] at hk
    obtain ⟨w, hw, hdw, hs, hl⟩ := Doubled_PushBack fuel v x hd (by omega)
    obtain ⟨u, hu, hdu, hsu, hlu⟩ := ih w hdw (by omega)
    refine ⟨u, ?_, hdu, ?_, ?_⟩
    · simp only [List.map_cons, pushAll, hw, hu, bind, Except.bind]
    · simp only [List.length_cons]; omega
    · rw [hlu, hl]; simp

theorem pow_two_least (m k : Nat) (h : 2 ^ m < 2 * k) : ∀ j, k ≤ 2 ^ j → 2 ^ m ≤ 2 ^ j := by
  intro j hj
  by_contra hlt
  have hjm : j < m := by
    by_contra hge
    exact hlt (Nat.pow_le_pow_right (by decide) (by omega))
  have : 2 ^ (j + 1) ≤ 2 ^ m := Nat.pow_le_pow_right (by decide) hjm
  rw [pow_succ] at this
  omega

end PushAll

/-- `PushBack` of items that are not elements of the vector itself: from the
default-constructed vector, `PushBack(x_1) ... PushBack(x_k)` (with `k` at most
`2 ^ 63`, so that a capacity fits `size_t`) returns with size `k`, elements
`x_1 .. x_k` in order, capacity 0 when `k = 0` and otherwise the least power of
two that is at least `k`.  Moreover one such `PushBack` on a valid vector does
not decrease the capacity, increases the size by one and appends the item
behind the unchanged previous elements.  Two levels of calls are enough
fuel. -/
theorem PushBack_doubling_policy {T : Type} [Inhabited T] (fuel : Nat) (xs : List T)
    (v : SimpleVector T) (x : T) (hf : 2 ≤ fuel) (hk : xs.length ≤ 2 ^ 63)
    (hv : v.Valid) (hc : v.capacity_ < 2 ^ 63) :
    (∃ w, SimpleVector.pushAll fuel SimpleVector.empty (xs.map ConstRef.val) = .ok w
        ∧ w.GetSize = xs.length ∧ w.toList = xs
        ∧ (xs.length = 0 → w.GetCapacity = 0)
        ∧ (0 < xs.length → ∃ m, w.GetCapacity = 2 ^ m ∧ xs.length ≤ 2 ^ m
              ∧ ∀ j, xs.length ≤ 2 ^ j → 2 ^ m ≤ 2 ^ j))
    ∧ (∃ w, SimpleVector.PushBack fuel v (.val x) = .ok w
        ∧ v.GetCapacity ≤ w.GetCapacity ∧ w.GetSize = v.GetSize + 1
        ∧ w.toList = v.toList ++ [x]) := by
  obtain ⟨f, rfl⟩ : ∃ f, fuel = f + 2 := ⟨fuel - 2, by omega⟩
  constructor
  · have hd : SimpleVector.Doubled (SimpleVector.empty : SimpleVector T) :=
      ⟨⟨by simp [SimpleVector.empty], by simp [SimpleVector.empty]⟩,
        fun _ => rfl, fun h => by simp [SimpleVector.empty] at h⟩
    obtain ⟨w, hw, hdw, hs, hl⟩ := pushAll_Doubled f xs SimpleVector.empty hd
      (by simp [SimpleVector.empty]; exact hk)
    have hs2 : w.size_ = xs.length := by simpa [SimpleVector.empty] using hs
    refine ⟨w, hw, hs2, by simpa [SimpleVector.toList, SimpleVector.empty] using hl, ?_, ?_⟩
    · intro h0
      exact hdw.2.1 (by rw [hs2]; exact h0)
    · intro hpos
      obtain ⟨m, hm, hlt⟩ := hdw.2.2 (by rw [hs2]; exact hpos)
      have hle := hdw.1.1
      simp only [SimpleVector.GetCapacity]
      rw [hs2] at hlt hle
      rw [hm] at hlt hle
      exact ⟨m, hm, hle, pow_two_least m xs.length hlt⟩
  · obtain ⟨w, hw, _, hs, hl, hcap⟩ := PushBack_spec f v x hv (fun _ => hc)
    refine ⟨w, hw, ?_, hs, hl⟩
    simp only [SimpleVector.GetCapacity]
    rw [hcap]
    split_ifs <;> omega

theorem PushBack_doubling_policy_witness :
    (∃ w, SimpleVector.pushAll 2 SimpleVector.empty
          (([10, 20, 30] : List Int).map ConstRef.val) = .ok w
        ∧ w.GetSize = 3 ∧ w.toList = [10, 20, 30]
        ∧ ((3 : Nat) = 0 → w.GetCapacity = 0)
        ∧ (0 < 3 → ∃ m, w.GetCapacity = 2 ^ m ∧ 3 ≤ 2 ^ m ∧ ∀ j, 3 ≤ 2 ^ j → 2 ^ m ≤ 2 ^ j))
    ∧ (∃ w, SimpleVector.PushBack 2
          ({ items_ := [1, 2], size_ := 2, capacity_ := 2 } : SimpleVector Int) (.val 5) = .ok w
        ∧ 2 ≤ w.GetCapacity ∧ w.GetSize = 2 + 1 ∧ w.toList = [1, 2] ++ [5]) :=
  PushBack_doubling_policy 2 ([10, 20, 30] : List Int)
    { items_ := [1, 2], size_ := 2, capacity_ := 2 } 5
    (by decide) (by decide) (by decide) (by decide)

/-- C4, evaluated where the item is an element of the vector itself and the
vector is full: after `PushBack(1)` on the default-constructed vector,
`PushBack(v[0])` calls `Reserve(2)`, which releases the buffer that `item`
refers to, and the nested call then reads `item` in `items_[size_] = item`: a
read through a dangling reference, not the appended element 1 that the same
calls yield when the value 1 is passed from outside the vector.  The same
happens for `v = [1, 2]` (capacity 2) and `PushBack(v[0])`. -/
theorem PushBack_own_element_dangling :
    SimpleVector.pushAll 2 (SimpleVector.empty : SimpleVector Int) [.val 1, .slot 0]
      = .error Fault.danglingRead
    ∧ SimpleVector.PushBack 2
        ({ items_ := [1, 2], size_ := 2, capacity_ := 2 } : SimpleVector Int) (.slot 0)
      = .error Fault.danglingRead
    ∧ SimpleVector.pushAll 2 (SimpleVector.empty : SimpleVector Int) [.val 1, .val 1]
      = .ok { items_ := [1, 1], size_ := 2, capacity_ := 2 } := by
  decide

section InsertAux
variable {T : Type}
open SimpleVector

theorem take_succ_set (l : List T) (n : Nat) (a : T) (h : n < l.length) :
    (l.set n a).take (n + 1) = l.take n ++ [a] := by
  rw [List.take_succ, take_set_self]
  simp [h]

theorem insert_buffer (items : List T) (size cap idx : Nat) (x d : T)
    (h1 : idx < size) (h2 : size < cap) (h3 : cap ≤ items.length) :
    ∃ t1 t2 t3, copyRange items 0 idx (List.replicate cap d) 0 = .ok t1
      ∧ ArrayPtr.write t1 idx x = .ok t2
      ∧ copyRange items idx size t2 (idx + 1) = .ok t3
      ∧ t3.length = cap
      ∧ t3.take (size + 1)
          = (items.take size).take idx ++ x :: (items.take size).drop idx := by
  have a1 : idx ≤ items.length := by omega
  have a2 : idx ≤ (List.replicate cap d).length := by simp; omega
  have l1 : (items.take idx ++ (List.replicate cap d).drop idx).length = cap := by
    simp; omega
  have a3 : idx < (items.take idx ++ (List.replicate cap d).drop idx).length := by
    rw [l1]; omega
  have l2 : ((items.take idx ++ (List.replicate cap d).drop idx).set idx x).length = cap := by
    rw [List.length_set]; exact l1
  refine ⟨_, _, _, copyRange_front _ _ _ a1 a2, write_ok _ _ _ a3,
    copyRange_ok _ _ _ _ _ (by omega) (by omega) (by rw [l2]; omega), ?_, ?_⟩
  · simp; omega
  · rw [take_succ_set _ _ _ a3]
    have e1 : (items.take idx ++ (List.replicate cap d).drop idx).take idx = items.take idx := by
      rw [List.take_append_of_le_length (by simp; omega)]
      simp
    have e2 : (items.take size).take idx = items.take idx := by
      rw [List.take_take, Nat.min_eq_left (by omega)]
    have e3 : (items.take size).drop idx = (items.drop idx).take (size - idx) := by
      rw [List.drop_take]
    have e4 : (items.take idx ++ [x] ++ (items.drop idx).take (size - idx)).length = size + 1 := by
      simp; omega
    rw [e1, e2, e3, List.take_append_of_le_length (by rw [e4]), ← e4, List.take_length]
    simp

end InsertAux

section InsertSpec
variable {T : Type}
open SimpleVector

/-- `Insert` on a vector with a free slot: no growth step, so the item may
also be an element of the vector itself. -/
theorem Insert_room [Inhabited T] (fuel : Nat) (v : SimpleVector T) (idx : Nat)
    (value : ConstRef T) (x : T) (hx : value.read v.items_ = .ok x)
    (hlt : v.size_ < v.capacity_) (hl : v.capacity_ ≤ v.items_.length) (hi : idx ≤ v.size_) :
    ∃ w, SimpleVector.Insert (fuel + 1) v idx value = .ok (w, idx) ∧ Valid w
      ∧ w.size_ = v.size_ + 1
      ∧ w.capacity_ = v.capacity_
      ∧ toList w = (toList v).take idx ++ x :: (toList v).drop idx := by
  have hne : v.size_ ≠ v.capacity_ := by omega
  by_cases he : v.size_ = idx
  · subst he
    refine ⟨{ v with items_ := v.items_.set v.size_ x, size_ := v.size_ + 1 }, ?_, ?_, rfl, rfl, ?_⟩
    · simp [SimpleVector.Insert, hne, PushBack_direct fuel v value x hx hlt hl, bind,
        Except.bind, pure, Except.pure]
    · constructor <;> simp <;> omega
    · have : v.size_ < v.items_.length := by omega
      have e : (v.items_.take v.size_).drop v.size_ = [] :=
        List.drop_eq_nil_of_le (by simp)
      simp [toList, List.take_succ, take_set_self, this, e]
  · have hlt2 : idx < v.size_ := by omega
    obtain ⟨t1, t2, t3, h1, h2, h3, hlen, htake⟩ :=
      insert_buffer v.items_ v.size_ v.capacity_ idx x default hlt2 hlt hl
    refine ⟨{ v with items_ := t3, size_ := v.size_ + 1 }, ?_, ?_, rfl, rfl, ?_⟩
    · simp [SimpleVector.Insert, hne, he, sized_ok, h1, hx, h2, h3, bind, Except.bind, pure,
        Except.pure]
    · constructor <;> simp <;> omega
    · simpa [toList] using htake

end InsertSpec

section InsertSpec2
variable {T : Type}
open SimpleVector

/-- The vector after the growth step of `Insert` on a full vector of
capacity at least 1. -/
theorem Insert_grown [Inhabited T] (fuel : Nat) (v : SimpleVector T) (idx : Nat) (x : T)
    (hfull : v.size_ = v.capacity_) (hpos : 0 < v.capacity_)
    (hl : v.capacity_ ≤ v.items_.length) (hc : v.capacity_ < 2 ^ 63) :
    SimpleVector.Insert fuel v idx (.val x)
      = SimpleVector.Insert fuel
          { items_ := v.items_.take v.size_
              ++ List.replicate (2 * v.capacity_ - v.size_) default,
            size_ := v.size_, capacity_ := 2 * v.capacity_ } idx (.val x) := by
  have e1 : v.size_ ≤ v.capacity_ := by omega
  have e2 : v.size_ ≤ v.items_.length := by omega
  have e3 : v.capacity_ < twice v.capacity_ := by rw [twice_eq _ hc]; omega
  have e4 : ¬ v.size_ = 2 * v.capacity_ := by omega
  have e5 : ¬ v.capacity_ = 2 * v.capacity_ := by omega
  have hR : Resize v (twice v.capacity_) = .ok
      { items_ := v.items_.take v.size_ ++ List.replicate (2 * v.capacity_ - v.size_) default,
        size_ := 2 * v.capacity_, capacity_ := 2 * v.capacity_ } := by
    rw [Resize_grow v _ e1 e2 e3, max_self, twice_eq _ hc]
  rw [SimpleVector.Insert, SimpleVector.Insert]
  simp only [hR, if_pos hfull, if_neg e4, refAfterResize_val, bind, Except.bind, pure,
    Except.pure]

/-- What `Insert` of an item outside the vector does to a valid vector. -/
theorem Insert_spec [Inhabited T] (fuel : Nat) (v : SimpleVector T) (idx : Nat) (x : T)
    (hv : Valid v) (hc : v.capacity_ < 2 ^ 63) (hi : idx ≤ v.size_) :
    ∃ w, SimpleVector.Insert (fuel + 1) v idx (.val x) = .ok (w, idx) ∧ Valid w
      ∧ w.size_ = v.size_ + 1
      ∧ w.capacity_ = (if v.size_ = v.capacity_ then (if v.capacity_ = 0 then 1 else 2 * v.capacity_)
                        else v.capacity_)
      ∧ toList w = (toList v).take idx ++ x :: (toList v).drop idx := by
  obtain ⟨h1, h2⟩ := hv
  by_cases hfull : v.size_ = v.capacity_
  · by_cases h0 : v.capacity_ = 0
    · have hs0 : v.size_ = 0 := by omega
      have hi0 : idx = 0 := by omega
      subst hi0
      have ht : twice v.capacity_ = v.size_ := by rw [h0, hs0]; rfl
      refine ⟨{ items_ := [x], size_ := 1, capacity_ := 1 }, ?_, ?_, ?_, ?_, ?_⟩
      · have hp := PushBack_zero fuel v x hs0 h0
        rw [SimpleVector.Insert]
        simp only [if_pos hfull, ht, Resize_same, if_pos hs0, hp, refAfterResize_val, bind,
          Except.bind, pure, Except.pure]
      · constructor <;> simp
      · simp [hs0]
      · simp [hfull, h0]
      · simp [toList, hs0]
    · have hpos : 0 < v.capacity_ := by omega
      rw [Insert_grown (fuel + 1) v idx x hfull hpos h2 hc]
      obtain ⟨w, hw, hvw, hsz, hcap, htl⟩ := Insert_room fuel
        ({ items_ := v.items_.take v.size_ ++ List.replicate (2 * v.capacity_ - v.size_) default,
           size_ := v.size_, capacity_ := 2 * v.capacity_ } : SimpleVector T) idx (.val x) x rfl
        (by simp; omega) (by simp; omega) hi
      refine ⟨w, hw, hvw, hsz, ?_, ?_⟩
      · rw [hcap]; simp [hfull, h0]
      · have e : (v.items_.take v.size_ ++ List.replicate (2 * v.capacity_ - v.size_)
            (default : T)).take v.size_ = v.items_.take v.size_ := by
          rw [List.take_append_of_le_length (by simp; omega)]
          simp
        rw [htl]; simp only [toList, e]
  · obtain ⟨w, hw, hvw, hsz, hcap, htl⟩ := Insert_room fuel v idx (.val x) x rfl (by omega) h2 hi
    exact ⟨w, hw, hvw, hsz, by rw [hcap]; simp [hfull], htl⟩

end InsertSpec2

section EraseSpec
variable {T : Type}
open SimpleVector

theorem At_of_toList (v : SimpleVector T) (i : Nat) (x : T) (h : v.size_ ≤ v.items_.length)
    (hx : (toList v)[i]? = some x) : At v i = .ok x := by
  have hi : i < (toList v).length := by
    rcases Nat.lt_or_ge i (toList v).length with h' | h'
    · exact h'
    · rw [List.getElem?_eq_none h'] at hx; cases hx
  rw [toList_length v h] at hi
  rw [At_toList v i h hi]
  rw [List.getElem?_eq_getElem (by rw [toList_length v h]; exact hi)] at hx
  simpa using hx

theorem index_toList (v : SimpleVector T) (i : Nat) (h : v.size_ ≤ v.items_.length)
    (hi : i < v.size_) :
    index v i = (match (toList v)[i]? with
      | some x => .ok x
      | none => .error .badAccess) := by
  have hl : i < v.items_.length := by omega
  simp [index, ArrayPtr.read, hl, toList, List.getElem?_take, hi]

theorem Erase_spec (v : SimpleVector T) (idx : Nat) (hs : v.size_ ≤ v.items_.length)
    (hi : idx < v.size_) :
    ∃ w, Erase v idx = .ok (w, idx) ∧ w.size_ = v.size_ - 1 ∧ w.capacity_ = v.capacity_
      ∧ w.items_.length = v.items_.length
      ∧ toList w = (toList v).take idx ++ (toList v).drop (idx + 1) := by
  have h3 : idx + (v.size_ - (idx + 1)) ≤ v.items_.length := by omega
  refine ⟨{ v with
      items_ := v.items_.take idx ++ (v.items_.drop (idx + 1)).take (v.size_ - (idx + 1))
        ++ v.items_.drop (idx + (v.size_ - (idx + 1))),
      size_ := v.size_ - 1 }, ?_, rfl, rfl, ?_, ?_⟩
  · simp only [Erase, copyRange_ok _ _ _ _ _ (by omega : idx + 1 ≤ v.size_) hs h3, bind,
      Except.bind, pure, Except.pure]
  · simp; omega
  · have e1 : (v.items_.take v.size_).take idx = v.items_.take idx := by
      rw [List.take_take, Nat.min_eq_left (by omega)]
    have e2 : (v.items_.take v.size_).drop (idx + 1)
        = (v.items_.drop (idx + 1)).take (v.size_ - (idx + 1)) := by
      rw [List.drop_take]
    have e4 : (v.items_.take idx
        ++ (v.items_.drop (idx + 1)).take (v.size_ - (idx + 1))).length = v.size_ - 1 := by
      simp; omega
    simp only [toList]
    rw [e1, e2, List.take_append_of_le_length (by rw [e4]), ← e4, List.take_length]

end EraseSpec

/-- `Insert` of an item that is not an element of the vector itself: on a
valid vector with elements `e_0 .. e_(n-1)`, `Insert` at a position `idx ≤ n`
returns, leaves size `n + 1` and the elements
`e_0 .. e_(idx-1), x, e_idx .. e_(n-1)`, and the returned iterator is at distance
`idx` from `begin()`, where the element read back is `x`; with or without a
growth of the capacity, and for `idx = n` as well. -/
theorem Insert_places_value {T : Type} [Inhabited T] (fuel : Nat) (v : SimpleVector T)
    (idx : Nat) (x : T) (hf : 1 ≤ fuel) (hv : v.Valid) (hc : v.capacity_ < 2 ^ 63)
    (hi : idx ≤ v.GetSize) :
    ∃ w, SimpleVector.Insert fuel v idx (.val x) = .ok (w, idx)
      ∧ w.GetSize = v.GetSize + 1
      ∧ w.toList = v.toList.take idx ++ x :: v.toList.drop idx
      ∧ w.At idx = .ok x := by
  obtain ⟨f, rfl⟩ : ∃ f, fuel = f + 1 := ⟨fuel - 1, by omega⟩
  obtain ⟨w, hw, hvw, hsz, _, htl⟩ := Insert_spec f v idx x hv hc hi
  refine ⟨w, hw, hsz, htl, ?_⟩
  apply At_of_toList w idx x (le_trans hvw.1 hvw.2)
  have hlen : (v.toList.take idx).length = idx := by
    rw [List.length_take, toList_length v (le_trans hv.1 hv.2)]
    exact Nat.min_eq_left hi
  rw [htl, List.getElem?_append_right (by rw [hlen]), hlen]
  simp

theorem Insert_places_value_witness :
    ∃ w, SimpleVector.Insert 1
        ({ items_ := [1, 2, 3, 0], size_ := 3, capacity_ := 4 } : SimpleVector Int) 1 (.val 99)
          = .ok (w, 1)
      ∧ w.GetSize = 3 + 1
      ∧ w.toList = [1] ++ 99 :: [2, 3]
      ∧ w.At 1 = .ok 99 :=
  Insert_places_value 1 ({ items_ := [1, 2, 3, 0], size_ := 3, capacity_ := 4 } : SimpleVector Int)
    1 99 (by decide) (by decide) (by decide) (by decide)

/-- C5, evaluated where the inserted value is an element of the vector itself
and the vector is full: on `v = [4, 5, 6]` (capacity 3),
`Insert(cbegin() + 1, v[2])` first runs `Resize(6)`, which releases the buffer
that `value` refers to, and then reads `value` in `temp[index] = value`: a read
through a dangling reference, not the value 6 in `[4, 6, 5, 6]` that the same
call yields when 6 is passed from outside the vector.  The append position
reads it inside `PushBack(value)` in the same way. -/
theorem Insert_own_element_dangling :
    SimpleVector.Insert 1
        ({ items_ := [4, 5, 6], size_ := 3, capacity_ := 3 } : SimpleVector Int) 1 (.slot 2)
      = .error Fault.danglingRead
    ∧ SimpleVector.Insert 1
        ({ items_ := [4, 5, 6], size_ := 3, capacity_ := 3 } : SimpleVector Int) 3 (.slot 0)
      = .error Fault.danglingRead
    ∧ SimpleVector.Insert 1
        ({ items_ := [4, 5, 6], size_ := 3, capacity_ := 3 } : SimpleVector Int) 1 (.val 6)
      = .ok ({ items_ := [4, 6, 5, 6, 0, 0], size_ := 4, capacity_ := 6 }, 1) := by
  decide

/-- C6: on a vector whose elements `e_0 .. e_(n-1)` lie inside its buffer,
`Erase` at a position `idx < n` returns, leaves size `n - 1`, the elements
`e_0 .. e_(idx-1), e_(idx+1) .. e_(n-1)` and the capacity unchanged; the
returned iterator is at distance `idx` from `begin()`, which is `end()` when
`idx` was the last index. -/
theorem Erase_removes_element {T : Type} (v : SimpleVector T) (idx : Nat)
    (hs : v.size_ ≤ v.items_.length) (hi : idx < v.GetSize) :
    ∃ w, SimpleVector.Erase v idx = .ok (w, idx)
      ∧ w.GetSize = v.GetSize - 1
      ∧ w.toList = v.toList.take idx ++ v.toList.drop (idx + 1)
      ∧ w.GetCapacity = v.GetCapacity
      ∧ (idx + 1 = v.GetSize → idx = w.GetSize) := by
  obtain ⟨w, hw, hsz, hcap, _, htl⟩ := Erase_spec v idx hs hi
  refine ⟨w, hw, hsz, htl, hcap, ?_⟩
  intro h
  simp only [SimpleVector.GetSize] at h ⊢
  omega

theorem Erase_removes_element_witness :
    ∃ w, SimpleVector.Erase
        ({ items_ := [1, 99, 2, 3], size_ := 4, capacity_ := 4 } : SimpleVector Int) 0
          = .ok (w, 0)
      ∧ w.GetSize = 4 - 1
      ∧ w.toList = [] ++ [99, 2, 3]
      ∧ w.GetCapacity = 4
      ∧ (0 + 1 = 4 → 0 = w.GetSize) :=
  Erase_removes_element
    ({ items_ := [1, 99, 2, 3], size_ := 4, capacity_ := 4 } : SimpleVector Int) 0
    (by decide) (by decide)

/-- C7: on a valid vector, `Insert` at a position `i ≤ size` followed by `Erase`
at the position the insertion returned gives back the size and the elements the
vector had before the two calls; the capacity has not decreased. -/
theorem Insert_then_Erase_restores {T : Type} [Inhabited T] (fuel : Nat) (v : SimpleVector T)
    (i : Nat) (x : T) (hf : 1 ≤ fuel) (hv : v.Valid) (hc : v.capacity_ < 2 ^ 63)
    (hi : i ≤ v.GetSize) :
    ∃ w u, SimpleVector.Insert fuel v i (.val x) = .ok (w, i)
      ∧ SimpleVector.Erase w i = .ok (u, i)
      ∧ u.GetSize = v.GetSize
      ∧ u.toList = v.toList
      ∧ v.GetCapacity ≤ u.GetCapacity := by
  obtain ⟨f, rfl⟩ : ∃ f, fuel = f + 1 := ⟨fuel - 1, by omega⟩
  obtain ⟨w, hw, hvw, hsz, hcap, htl⟩ := Insert_spec f v i x hv hc hi
  have hi2 : i ≤ v.size_ := hi
  obtain ⟨u, hu, husz, hucap, _, hutl⟩ := Erase_spec w i (le_trans hvw.1 hvw.2) (by omega)
  refine ⟨w, u, hw, hu, ?_, ?_, ?_⟩
  · simp only [SimpleVector.GetSize]; omega
  · have hlen : (v.toList.take i).length = i := by
      rw [List.length_take, toList_length v (le_trans hv.1 hv.2)]
      exact Nat.min_eq_left hi
    have hd : (v.toList.take i ++ x :: v.toList.drop i).drop (i + 1) = v.toList.drop i := by
      rw [List.drop_append_eq_append_drop, List.drop_of_length_le (by rw [hlen]; omega), hlen]
      simp
    rw [hutl, htl, hd, List.take_append_of_le_length (by rw [hlen]),
      List.take_of_length_le (by rw [hlen]), List.take_append_drop]
  · simp only [SimpleVector.GetCapacity]
    rw [hucap, hcap]
    split_ifs <;> omega

theorem Insert_then_Erase_restores_witness :
    ∃ w u, SimpleVector.Insert 1
        ({ items_ := [4, 5, 6], size_ := 3, capacity_ := 3 } : SimpleVector Int) 1 (.val 99)
          = .ok (w, 1)
      ∧ SimpleVector.Erase w 1 = .ok (u, 1)
      ∧ u.GetSize = 3
      ∧ u.toList = [4, 5, 6]
      ∧ 3 ≤ u.GetCapacity :=
  Insert_then_Erase_restores 1
    ({ items_ := [4, 5, 6], size_ := 3, capacity_ := 3 } : SimpleVector Int) 1 99
    (by decide) (by decide) (by decide) (by decide)

/-- C8: on a vector whose size is at most its recorded capacity and whose
elements lie inside its buffer, `Reserve(c)` returns with capacity
`max(old capacity, c)`, the size unchanged and every element at an index below
the size unchanged. -/
theorem Reserve_capacity_frame {T : Type} [Inhabited T] (v : SimpleVector T) (c : Nat)
    (h1 : v.size_ ≤ v.capacity_) (h2 : v.size_ ≤ v.items_.length) :
    ∃ w, SimpleVector.Reserve v c = .ok w
      ∧ w.GetCapacity = max v.GetCapacity c
      ∧ w.GetSize = v.GetSize
      ∧ w.toList = v.toList
      ∧ ∀ i, i < v.GetSize → w.index i = v.index i := by
  by_cases hc : c ≤ v.capacity_
  · refine ⟨v, Reserve_keep v c hc, ?_, rfl, rfl, fun _ _ => rfl⟩
    simp only [SimpleVector.GetCapacity]
    rw [Nat.max_eq_left hc]
  · have hlt : v.capacity_ < c := by omega
    have htl : (SimpleVector.toList
        ({ items_ := v.items_.take v.size_ ++ List.replicate (c - v.size_) default,
           size_ := v.size_, capacity_ := c } : SimpleVector T)) = v.toList := by
      simp only [SimpleVector.toList]
      rw [List.take_append_of_le_length (by simp; omega)]
      simp
    refine ⟨_, Reserve_grow v c h1 h2 hlt, ?_, rfl, htl, ?_⟩
    · simp only [SimpleVector.GetCapacity]
      rw [Nat.max_eq_right (by omega)]
    · intro i hi
      have hw := index_toList
        ({ items_ := v.items_.take v.size_ ++ List.replicate (c - v.size_) default,
           size_ := v.size_, capacity_ := c } : SimpleVector T) i (by simp; omega) hi
      rw [hw, htl, index_toList v i h2 hi]

theorem Reserve_capacity_frame_witness :
    ∃ w, SimpleVector.Reserve
        ({ items_ := [1, 2, 0], size_ := 2, capacity_ := 3 } : SimpleVector Int) 8 = .ok w
      ∧ w.GetCapacity = max 3 8
      ∧ w.GetSize = 2
      ∧ w.toList = [1, 2]
      ∧ ∀ i, i < 2 → w.index i
          = SimpleVector.index
              ({ items_ := [1, 2, 0], size_ := 2, capacity_ := 3 } : SimpleVector Int) i :=
  Reserve_capacity_frame ({ items_ := [1, 2, 0], size_ := 2, capacity_ := 3 } : SimpleVector Int) 8
    (by decide) (by decide)

/-- C9: `At(index)` fails with `std::out_of_range` exactly when
`index ≥ GetSize()` (so also for an allocated slot at an index from the size up
to the capacity); for an index below the size it returns what `operator[]`
returns, and on a vector whose elements lie inside its buffer that is a value,
not a failure. -/
theorem At_out_of_range_iff {T : Type} (v : SimpleVector T) (i : Nat) :
    (v.At i = .error Fault.outOfRange ↔ v.GetSize ≤ i)
    ∧ (i < v.GetSize → v.At i = v.index i)
    ∧ (v.size_ ≤ v.items_.length → i < v.GetSize → ∃ x, v.At i = .ok x) := by
  have hidx : i < v.size_ → v.At i = v.index i := by
    intro hi
    have hn : ¬ i ≥ v.size_ := by omega
    simp only [SimpleVector.At, SimpleVector.index, if_neg hn]
  refine ⟨⟨fun hAt => ?_, fun hge => ?_⟩, hidx, fun h hi => ?_⟩
  · by_contra hlt
    have hi : i < v.size_ := by simp only [SimpleVector.GetSize] at hlt; omega
    rw [hidx hi] at hAt
    unfold SimpleVector.index ArrayPtr.read at hAt
    split at hAt <;> cases hAt
  · have : i ≥ v.size_ := hge
    simp [SimpleVector.At, this]
  · have hi2 : i < v.size_ := hi
    exact ⟨_, At_toList v i h hi2⟩

theorem At_out_of_range_iff_witness :
    (SimpleVector.At ({ items_ := [1, 2, 3, 0], size_ := 3, capacity_ := 4 } : SimpleVector Int) 3
        = .error Fault.outOfRange)
    ∧ (SimpleVector.At ({ items_ := [1, 2, 3, 0], size_ := 3, capacity_ := 4 } : SimpleVector Int) 2
        = SimpleVector.index
            ({ items_ := [1, 2, 3, 0], size_ := 3, capacity_ := 4 } : SimpleVector Int) 2)
    ∧ (∃ x, SimpleVector.At
        ({ items_ := [1, 2, 3, 0], size_ := 3, capacity_ := 4 } : SimpleVector Int) 2 = .ok x) :=
  ⟨(At_out_of_range_iff
      ({ items_ := [1, 2, 3, 0], size_ := 3, capacity_ := 4 } : SimpleVector Int) 3).1.2
      (by decide),
   (At_out_of_range_iff
      ({ items_ := [1, 2, 3, 0], size_ := 3, capacity_ := 4 } : SimpleVector Int) 2).2.1
      (by decide),
   (At_out_of_range_iff
      ({ items_ := [1, 2, 3, 0], size_ := 3, capacity_ := 4 } : SimpleVector Int) 2).2.2
      (by decide) (by decide)⟩

/-- C10: on a valid vector (capacity below `2 ^ 63`), `Resize(n)` returns; the
capacity is unchanged when `n` is at most the old capacity, and is
`max(n, 2 * old capacity)` when `n` exceeds it; for `n` below the size only the
size changes; and `Clear()` leaves size 0 with the capacity unchanged. -/
theorem Resize_capacity_policy {T : Type} [Inhabited T] (v : SimpleVector T) (n : Nat)
    (hv : v.Valid) (hc : v.capacity_ < 2 ^ 63) :
    (∃ w, SimpleVector.Resize v n = .ok w
      ∧ (n ≤ v.GetCapacity → w.GetCapacity = v.GetCapacity)
      ∧ (v.GetCapacity < n → w.GetCapacity = max n (2 * v.GetCapacity))
      ∧ (n < v.GetSize → w = { v with size_ := n }))
    ∧ (∃ u, SimpleVector.Clear v = .ok u ∧ u.GetSize = 0 ∧ u.GetCapacity = v.GetCapacity) := by
  obtain ⟨h1, h2⟩ := hv
  constructor
  · rcases Nat.lt_trichotomy n v.size_ with hlt | heq | hgt
    · refine ⟨_, Resize_shrink v n hlt, fun _ => rfl, fun h => ?_, fun _ => rfl⟩
      simp only [SimpleVector.GetCapacity] at h; omega
    · subst heq
      refine ⟨v, Resize_same v, fun _ => rfl, fun h => ?_, fun h => ?_⟩
      · simp only [SimpleVector.GetCapacity] at h; omega
      · simp only [SimpleVector.GetSize] at h; omega
    · by_cases hle : n ≤ v.capacity_
      · refine ⟨_, Resize_fill v n hgt hle h2, fun _ => rfl, fun h => ?_, fun h => ?_⟩
        · simp only [SimpleVector.GetCapacity] at h; omega
        · simp only [SimpleVector.GetSize] at h; omega
      · refine ⟨_, Resize_grow v n h1 (by omega) (by omega), fun h => ?_, fun _ => ?_, fun h => ?_⟩
        · simp only [SimpleVector.GetCapacity] at h; omega
        · simp only [SimpleVector.GetCapacity]; rw [twice_eq _ hc]
        · simp only [SimpleVector.GetSize] at h; omega
  · rcases Nat.eq_zero_or_pos v.size_ with h0 | hpos
    · refine ⟨v, ?_, h0, rfl⟩
      have := Resize_same v
      rw [h0] at this
      exact this
    · exact ⟨_, Resize_shrink v 0 hpos, rfl, rfl⟩

theorem Resize_capacity_policy_witness :
    (∃ w, SimpleVector.Resize
        ({ items_ := [7, 7, 7, 7, 7], size_ := 3, capacity_ := 5 } : SimpleVector Int) 6 = .ok w
      ∧ (6 ≤ 5 → w.GetCapacity = 5)
      ∧ (5 < 6 → w.GetCapacity = max 6 (2 * 5))
      ∧ (6 < 3 → w = { items_ := [7, 7, 7, 7, 7], size_ := 6, capacity_ := 5 }))
    ∧ (∃ u, SimpleVector.Clear
        ({ items_ := [7, 7, 7, 7, 7], size_ := 3, capacity_ := 5 } : SimpleVector Int) = .ok u
      ∧ u.GetSize = 0 ∧ u.GetCapacity = 5) :=
  Resize_capacity_policy
    ({ items_ := [7, 7, 7, 7, 7], size_ := 3, capacity_ := 5 } : SimpleVector Int) 6
    (by decide) (by decide)

section CopyAux
variable {T : Type}
open SimpleVector

theorem bind_ok_inv {ε α β : Type} {x : Except ε α} {f : α → Except ε β} {b : β}
    (h : (x >>= f) = .ok b) : ∃ a, x = .ok a ∧ f a = .ok b := by
  cases x with
  | error e => simp [bind, Except.bind] at h
  | ok a => exact ⟨a, rfl, by simpa [bind, Except.bind] using h⟩

theorem copyConstruct_ok (fresh : T) (a : SimpleVector T) (h1 : a.size_ ≤ a.capacity_)
    (h2 : a.size_ ≤ a.items_.length) :
    copyConstruct fresh a = .ok
      { items_ := a.items_.take a.size_ ++ List.replicate (a.capacity_ - a.size_) fresh,
        size_ := a.size_, capacity_ := a.capacity_ } := by
  have h3 : a.size_ ≤ (List.replicate a.capacity_ fresh).length := by
    simp [h1]
  simp [copyConstruct, ArrayPtr.alloc, copyRange_front _ _ _ h2 h3, bind, Except.bind, pure,
    Except.pure]

theorem deref_ok_inv (s : Store T) (o : Obj) (v : SimpleVector T) (h : s.deref o = .ok v) :
    ∃ hlt : o.items_ < s.bufs.length,
      v = { items_ := s.bufs.get ⟨o.items_, hlt⟩, size_ := o.size_, capacity_ := o.capacity_ } := by
  unfold Store.deref at h
  split at h
  · next hlt => exact ⟨hlt, by cases h; rfl⟩
  · cases h

theorem deref_append (s : Store T) (o : Obj) (v : SimpleVector T) (buf : List T)
    (h : s.deref o = .ok v) : Store.deref { bufs := s.bufs ++ [buf] } o = .ok v := by
  obtain ⟨hlt, rfl⟩ := deref_ok_inv s o v h
  have hlt2 : o.items_ < s.bufs.length + 1 := by omega
  simp [Store.deref, hlt2, List.getElem_append_left, hlt]

theorem deref_set_other (s : Store T) (o : Obj) (v : SimpleVector T) (k : Nat) (buf : List T)
    (h : s.deref o = .ok v) (hne : k ≠ o.items_) :
    Store.deref { bufs := s.bufs.set k buf } o = .ok v := by
  obtain ⟨hlt, rfl⟩ := deref_ok_inv s o v h
  simp [Store.deref, hlt, List.getElem_set_ne hne]

end CopyAux

/-- C11: for a vector `a` (size at most capacity, elements inside its buffer)
the copy constructor returns a vector `c` with `c == a` (same size, same
elements in order) and the same capacity; the buffer of `c` is a new entry of
the store, `a` is unchanged by the copy, and whatever a later `PushBack`,
`Insert`, `Erase`, `Resize` or element assignment on `c` does, `a` keeps its
size, capacity and elements. -/
theorem copy_is_equal_and_independent {T : Type} [Inhabited T] [DecidableEq T] (fresh : T)
    (fuel : Nat) (m : SimpleVector.Mutation T) (s : Store T) (a : Obj) (va : SimpleVector T)
    (hd : s.deref a = .ok va) (h1 : va.size_ ≤ va.capacity_)
    (h2 : va.size_ ≤ va.items_.length) :
    ∃ s1 c vc, Store.copyConstruct fresh s a = .ok (s1, c)
      ∧ s1.deref c = .ok vc
      ∧ SimpleVector.copyConstruct fresh va = .ok vc
      ∧ vc.GetSize = va.GetSize
      ∧ vc.toList = va.toList
      ∧ SimpleVector.opEq false vc va = .ok true
      ∧ vc.GetCapacity = va.GetCapacity
      ∧ c.items_ ≠ a.items_
      ∧ s1.deref a = .ok va
      ∧ ∀ s2 c2, Store.call (SimpleVector.Mutation.run fuel m) s1 c = .ok (s2, c2) →
          s2.deref a = .ok va := by
  have hc := copyConstruct_ok fresh va h1 h2
  obtain ⟨hlt, hva⟩ := deref_ok_inv s a va hd
  have htl : SimpleVector.toList
      ({ items_ := va.items_.take va.size_ ++ List.replicate (va.capacity_ - va.size_) fresh,
         size_ := va.size_, capacity_ := va.capacity_ } : SimpleVector T) = va.toList := by
    simp only [SimpleVector.toList]
    rw [List.take_append_of_le_length (by simp; omega)]
    simp
  have hda : Store.deref
      { bufs := s.bufs ++ [va.items_.take va.size_
          ++ List.replicate (va.capacity_ - va.size_) fresh] } a = .ok va :=
    deref_append s a va _ hd
  refine ⟨{ bufs := s.bufs ++ [va.items_.take va.size_
              ++ List.replicate (va.capacity_ - va.size_) fresh] },
          { items_ := s.bufs.length, size_ := va.size_, capacity_ := va.capacity_ },
          _, ?_, ?_, hc, rfl, htl, ?_, rfl, ?_, hda, ?_⟩
  · simp [Store.copyConstruct, hd, hc, bind, Except.bind, pure, Except.pure]
  · simp [Store.deref]
  · rw [opEq_distinct _ _ (by simp; omega) h2, htl]
    simp
  · simp only [ne_eq]; omega
  · intro s2 c2 hcall
    unfold Store.call at hcall
    obtain ⟨v, _, hcall⟩ := bind_ok_inv hcall
    obtain ⟨w, _, hcall⟩ := bind_ok_inv hcall
    simp only [pure, Except.pure, Except.ok.injEq, Prod.mk.injEq] at hcall
    rw [← hcall.1]
    exact deref_set_other _ a va _ _ hda (by simp only [ne_eq]; omega)

theorem copy_is_equal_and_independent_witness :
    ∃ s1 c vc, Store.copyConstruct 0 ({ bufs := [[1, 2, 0, 0]] } : Store Int)
          { items_ := 0, size_ := 2, capacity_ := 4 } = .ok (s1, c)
      ∧ s1.deref c = .ok vc
      ∧ SimpleVector.copyConstruct 0
          ({ items_ := [1, 2, 0, 0], size_ := 2, capacity_ := 4 } : SimpleVector Int) = .ok vc
      ∧ vc.GetSize = 2
      ∧ vc.toList = [1, 2]
      ∧ SimpleVector.opEq false vc { items_ := [1, 2, 0, 0], size_ := 2, capacity_ := 4 }
          = .ok true
      ∧ vc.GetCapacity = 4
      ∧ c.items_ ≠ 0
      ∧ s1.deref { items_ := 0, size_ := 2, capacity_ := 4 }
          = .ok { items_ := [1, 2, 0, 0], size_ := 2, capacity_ := 4 }
      ∧ ∀ s2 c2, Store.call (SimpleVector.Mutation.run 2 (.pushBack (.val 5))) s1 c
            = .ok (s2, c2) →
          s2.deref { items_ := 0, size_ := 2, capacity_ := 4 }
            = .ok { items_ := [1, 2, 0, 0], size_ := 2, capacity_ := 4 } :=
  copy_is_equal_and_independent 0 2 (.pushBack (.val 5)) ({ bufs := [[1, 2, 0, 0]] } : Store Int)
    { items_ := 0, size_ := 2, capacity_ := 4 }
    { items_ := [1, 2, 0, 0], size_ := 2, capacity_ := 4 } (by decide) (by decide) (by decide)

/-- C12: move construction from `a` gives the new vector exactly the former
state of `a` (buffer, size, capacity) and leaves `a` with size 0 and capacity
0; a `PushBack(x)` on `a` afterwards returns and yields a vector of size 1 whose
only element is `x`. -/
theorem moveConstruct_takes_state {T : Type} [Inhabited T] (fuel : Nat) (a : SimpleVector T)
    (x : T) (hf : 1 ≤ fuel) :
    (SimpleVector.moveConstruct a).1 = a
    ∧ (SimpleVector.moveConstruct a).2.GetSize = 0
    ∧ (SimpleVector.moveConstruct a).2.GetCapacity = 0
    ∧ ∃ w, SimpleVector.PushBack fuel (SimpleVector.moveConstruct a).2 (.val x) = .ok w
        ∧ w.GetSize = 1 ∧ w.toList = [x] ∧ w.At 0 = .ok x := by
  obtain ⟨f, rfl⟩ : ∃ f, fuel = f + 1 := ⟨fuel - 1, by omega⟩
  refine ⟨rfl, rfl, rfl, { items_ := [x], size_ := 1, capacity_ := 1 }, ?_, rfl, rfl, ?_⟩
  · exact PushBack_zero f _ x rfl rfl
  · simp [SimpleVector.At, ArrayPtr.read]

theorem moveConstruct_takes_state_witness :
    (SimpleVector.moveConstruct
        ({ items_ := [1, 2, 3, 0], size_ := 3, capacity_ := 4 } : SimpleVector Int)).1
      = { items_ := [1, 2, 3, 0], size_ := 3, capacity_ := 4 }
    ∧ (SimpleVector.moveConstruct
        ({ items_ := [1, 2, 3, 0], size_ := 3, capacity_ := 4 } : SimpleVector Int)).2.GetSize = 0
    ∧ (SimpleVector.moveConstruct
        ({ items_ := [1, 2, 3, 0], size_ := 3, capacity_ := 4 } : SimpleVector Int)).2.GetCapacity
      = 0
    ∧ ∃ w, SimpleVector.PushBack 1 (SimpleVector.moveConstruct
        ({ items_ := [1, 2, 3, 0], size_ := 3, capacity_ := 4 } : SimpleVector Int)).2 (.val 7)
          = .ok w
        ∧ w.GetSize = 1 ∧ w.toList = [7] ∧ w.At 0 = .ok 7 :=
  moveConstruct_takes_state 1
    ({ items_ := [1, 2, 3, 0], size_ := 3, capacity_ := 4 } : SimpleVector Int) 7 (by decide)

/-- C13: `swap(SimpleVector&)` exchanges the complete states of the two
vectors (buffer, size, capacity), and a second swap restores both. -/
theorem swap_exchanges_states {T : Type} (a b : SimpleVector T) :
    SimpleVector.swap a b = (b, a)
    ∧ (SimpleVector.swap a b).1.toList = b.toList
    ∧ (SimpleVector.swap a b).1.GetSize = b.GetSize
    ∧ (SimpleVector.swap a b).1.GetCapacity = b.GetCapacity
    ∧ (SimpleVector.swap a b).2.toList = a.toList
    ∧ (SimpleVector.swap a b).2.GetSize = a.GetSize
    ∧ (SimpleVector.swap a b).2.GetCapacity = a.GetCapacity
    ∧ SimpleVector.swap (SimpleVector.swap a b).1 (SimpleVector.swap a b).2 = (a, b) :=
  ⟨rfl, rfl, rfl, rfl, rfl, rfl, rfl, rfl⟩

/-- C14, evaluated on `a = [1, 2, 3]` (capacity 3) and `b = [9]` (capacity 1):
after `a.swap(std::move(b))` the buffer of `b` is still its own single slot
`[9]` while its size and recorded capacity are 3, and `a` records capacity 1 over
a buffer of 3 slots; the buffers were not exchanged.  With the roles reversed
(`a = [1]`, `b = [7, 8, 9]`) the three elements of `b` are moved into the single
slot of `a`, an access outside the buffer. -/
theorem swapRvalue_scenario_buffers_kept :
    SimpleVector.swapRvalue
        ({ items_ := [1, 2, 3], size_ := 3, capacity_ := 3 } : SimpleVector Int)
        { items_ := [9], size_ := 1, capacity_ := 1 }
      = .ok ({ items_ := [9, 2, 3], size_ := 1, capacity_ := 1 },
             { items_ := [9], size_ := 3, capacity_ := 3 })
    ∧ SimpleVector.swapRvalue
        ({ items_ := [1], size_ := 1, capacity_ := 1 } : SimpleVector Int)
        { items_ := [7, 8, 9], size_ := 3, capacity_ := 3 }
      = .error Fault.badAccess := by
  decide

/-- C16: on a valid vector (capacity below `2 ^ 63`) and a position
`idx ≤ size`, `Insert` returns; a full vector ends with twice its capacity, or
with capacity 1 when the capacity was 0; a vector with a free slot keeps its
capacity; in every case the size grows by exactly one. -/
theorem Insert_capacity_policy {T : Type} [Inhabited T] (fuel : Nat) (v : SimpleVector T)
    (idx : Nat) (x : T) (hf : 1 ≤ fuel) (hv : v.Valid) (hc : v.capacity_ < 2 ^ 63)
    (hi : idx ≤ v.GetSize) :
    ∃ w, SimpleVector.Insert fuel v idx (.val x) = .ok (w, idx)
      ∧ (v.GetSize = v.GetCapacity → v.GetCapacity ≠ 0 → w.GetCapacity = 2 * v.GetCapacity)
      ∧ (v.GetSize = v.GetCapacity → v.GetCapacity = 0 → w.GetCapacity = 1)
      ∧ (v.GetSize < v.GetCapacity → w.GetCapacity = v.GetCapacity)
      ∧ w.GetSize = v.GetSize + 1 := by
  obtain ⟨f, rfl⟩ : ∃ f, fuel = f + 1 := ⟨fuel - 1, by omega⟩
  obtain ⟨w, hw, _, hsz, hcap, _⟩ := Insert_spec f v idx x hv hc hi
  simp only [SimpleVector.GetSize, SimpleVector.GetCapacity]
  refine ⟨w, hw, fun h1 h2 => ?_, fun h1 h2 => ?_, fun h1 => ?_, hsz⟩
  · rw [hcap, if_pos h1, if_neg h2]
  · rw [hcap, if_pos h1, if_pos h2]
  · rw [hcap, if_neg (by omega)]

theorem Insert_capacity_policy_witness :
    ∃ w, SimpleVector.Insert 1
        ({ items_ := [4, 5, 6], size_ := 3, capacity_ := 3 } : SimpleVector Int) 1 (.val 99)
          = .ok (w, 1)
      ∧ (3 = 3 → 3 ≠ 0 → w.GetCapacity = 2 * 3)
      ∧ (3 = 3 → 3 = 0 → w.GetCapacity = 1)
      ∧ (3 < 3 → w.GetCapacity = 3)
      ∧ w.GetSize = 3 + 1 :=
  Insert_capacity_policy 1
    ({ items_ := [4, 5, 6], size_ := 3, capacity_ := 3 } : SimpleVector Int) 1 99
    (by decide) (by decide) (by decide) (by decide)

/-- C17: `SimpleVector(n)` returns a vector of size `n` and capacity `n` whose
`n` elements all equal `Type()`; `SimpleVector(n, x)` returns a vector of size
`n` and capacity `n` whose `n` elements all equal `x`. -/
theorem sized_constructors {T : Type} [Inhabited T] (n : Nat) (x : T) :
    (∃ w : SimpleVector T, SimpleVector.sized n = .ok w
        ∧ w.GetSize = n ∧ w.GetCapacity = n
        ∧ w.toList = List.replicate n default
        ∧ ∀ i, i < n → w.At i = .ok default)
    ∧ (∃ w : SimpleVector T, SimpleVector.sizedValue n x = .ok w
        ∧ w.GetSize = n ∧ w.GetCapacity = n
        ∧ w.toList = List.replicate n x
        ∧ ∀ i, i < n → w.At i = .ok x) := by
  constructor
  · refine ⟨_, sized_ok n, rfl, rfl, by simp [SimpleVector.toList], fun i hi => ?_⟩
    have hn : ¬ n ≤ i := by omega
    simp [SimpleVector.At, ArrayPtr.read, hn, hi]
  · refine ⟨_, sizedValue_ok n x, rfl, rfl, by simp [SimpleVector.toList], fun i hi => ?_⟩
    have hn : ¬ n ≤ i := by omega
    simp [SimpleVector.At, ArrayPtr.read, hn, hi]

theorem sized_constructors_witness :
    (∃ w : SimpleVector Int, SimpleVector.sized 5 = .ok w
        ∧ w.GetSize = 5 ∧ w.GetCapacity = 5
        ∧ w.toList = List.replicate 5 default
        ∧ ∀ i, i < 5 → w.At i = .ok default)
    ∧ (∃ w : SimpleVector Int, SimpleVector.sizedValue 5 7 = .ok w
        ∧ w.GetSize = 5 ∧ w.GetCapacity = 5
        ∧ w.toList = List.replicate 5 7
        ∧ ∀ i, i < 5 → w.At i = .ok 7) :=
  sized_constructors 5 (7 : Int)

/-- C19: `PopBack` on an empty vector changes nothing; on a vector of size
`n > 0` it leaves size `n - 1`, the capacity and the buffer unchanged, hence the
first `n - 1` elements unchanged.  `Clear` returns on every vector and leaves
size 0 with the capacity unchanged. -/
theorem PopBack_and_Clear_frame {T : Type} [Inhabited T] (v : SimpleVector T) :
    (v.GetSize = 0 → v.PopBack = v)
    ∧ (0 < v.GetSize →
        v.PopBack.GetSize = v.GetSize - 1
        ∧ v.PopBack.GetCapacity = v.GetCapacity
        ∧ v.PopBack.items_ = v.items_
        ∧ v.PopBack.toList = v.toList.take (v.GetSize - 1))
    ∧ (∃ u, v.Clear = .ok u ∧ u.GetSize = 0 ∧ u.GetCapacity = v.GetCapacity
        ∧ u.items_ = v.items_) := by
  refine ⟨fun h => ?_, fun h => ?_, ?_⟩
  · have h0 : v.size_ = 0 := h
    simp [SimpleVector.PopBack, h0]
  · have hne : v.size_ ≠ 0 := by
      have : 0 < v.size_ := h
      omega
    refine ⟨?_, ?_, ?_, ?_⟩
    · simp [SimpleVector.PopBack, hne, SimpleVector.GetSize]
    · simp [SimpleVector.PopBack, hne, SimpleVector.GetCapacity]
    · simp [SimpleVector.PopBack, hne]
    · simp only [SimpleVector.PopBack, if_neg hne, SimpleVector.toList, SimpleVector.GetSize]
      rw [List.take_take, Nat.min_eq_left (by omega)]
  · rcases Nat.eq_zero_or_pos v.size_ with h0 | hpos
    · refine ⟨v, ?_, h0, rfl, rfl⟩
      have := Resize_same v
      rw [h0] at this
      exact this
    · exact ⟨_, Resize_shrink v 0 hpos, rfl, rfl, rfl⟩

theorem PopBack_and_Clear_frame_witness :
    (SimpleVector.PopBack ({ items_ := [], size_ := 0, capacity_ := 0 } : SimpleVector Int)
        = { items_ := [], size_ := 0, capacity_ := 0 })
    ∧ (SimpleVector.PopBack
          ({ items_ := [1, 2, 3, 0], size_ := 3, capacity_ := 4 } : SimpleVector Int)).GetSize
        = 3 - 1
    ∧ (SimpleVector.PopBack
          ({ items_ := [1, 2, 3, 0], size_ := 3, capacity_ := 4 } : SimpleVector Int)).toList
        = [1, 2] :=
  ⟨(PopBack_and_Clear_frame
      ({ items_ := [], size_ := 0, capacity_ := 0 } : SimpleVector Int)).1 (by decide),
   ((PopBack_and_Clear_frame
      ({ items_ := [1, 2, 3, 0], size_ := 3, capacity_ := 4 } : SimpleVector Int)).2.1
      (by decide)).1,
   ((PopBack_and_Clear_frame
      ({ items_ := [1, 2, 3, 0], size_ := 3, capacity_ := 4 } : SimpleVector Int)).2.1
      (by decide)).2.2.2⟩

/-- C20: on a valid vector (capacity below `2 ^ 63`) `PushBack` returns after at
most one nested call.  With a free slot, or with capacity 0 (one slot is
reserved first), the item is placed by the outer call itself.  With
`size == capacity ≥ 1` the outer call does make a nested call, after
`Reserve(capacity * 2)` has strictly increased the capacity above the size, and
that nested call places the item without a further call. -/
theorem PushBack_single_retry {T : Type} [Inhabited T] (v : SimpleVector T) (x : T)
    (hv : v.Valid) (hc : v.capacity_ < 2 ^ 63) :
    ((v.GetSize < v.GetCapacity ∨ v.GetCapacity = 0) →
        ∃ w, SimpleVector.PushBack 1 v (.val x) = .ok w)
    ∧ (v.GetSize = v.GetCapacity → 1 ≤ v.GetCapacity →
        SimpleVector.PushBack 1 v (.val x) = .error Fault.noFuel
        ∧ ∃ r, SimpleVector.Reserve v (twice v.capacity_) = .ok r
            ∧ v.GetCapacity < r.GetCapacity ∧ r.GetSize < r.GetCapacity
            ∧ ∃ w, SimpleVector.PushBack 1 r (.val x) = .ok w
                ∧ SimpleVector.PushBack 2 v (.val x) = .ok w)
    ∧ (∀ fuel, 2 ≤ fuel → ∃ w, SimpleVector.PushBack fuel v (.val x) = .ok w) := by
  obtain ⟨h1, h2⟩ := hv
  simp only [SimpleVector.GetSize, SimpleVector.GetCapacity]
  refine ⟨fun h => ?_, fun hfull hpos => ?_, fun fuel hf => ?_⟩
  · rcases h with hlt | h0
    · exact ⟨_, PushBack_direct 0 v (.val x) x rfl hlt h2⟩
    · exact ⟨_, PushBack_zero 0 v x (by omega) h0⟩
  · have e1 : v.capacity_ ≠ 0 := by omega
    have e2 : ¬ v.size_ < v.capacity_ := by omega
    have e5 : v.capacity_ < twice v.capacity_ := by rw [twice_eq _ hc]; omega
    have hR := Reserve_grow v (twice v.capacity_) h1 (by omega) e5
    have hstep : ∀ fuel, SimpleVector.PushBack (fuel + 1) v (.val x)
        = SimpleVector.PushBack fuel
            { items_ := v.items_.take v.size_
                ++ List.replicate (twice v.capacity_ - v.size_) default,
              size_ := v.size_, capacity_ := twice v.capacity_ } (.val x) := by
      intro fuel
      rw [SimpleVector.PushBack]
      simp only [if_neg e1, if_neg e2, if_pos hfull, hR, refAfterReserve_val, bind, Except.bind,
        pure, Except.pure]
    refine ⟨?_, _, hR, e5, by simp only []; omega, ?_⟩
    · rw [hstep 0]; rfl
    · refine ⟨_, PushBack_direct 0 _ (.val x) x rfl (by simp only []; omega) (by simp; omega), ?_⟩
      rw [hstep 1]
      exact PushBack_direct 0 _ (.val x) x rfl (by simp only []; omega) (by simp; omega)
  · obtain ⟨f, rfl⟩ : ∃ f, fuel = f + 2 := ⟨fuel - 2, by omega⟩
    obtain ⟨w, hw, _⟩ := PushBack_spec f v x ⟨h1, h2⟩ (fun _ => hc)
    exact ⟨w, hw⟩

theorem PushBack_single_retry_witness :
    (SimpleVector.PushBack 1
        ({ items_ := [1, 2], size_ := 2, capacity_ := 2 } : SimpleVector Int) (.val 5)
      = .error Fault.noFuel
      ∧ ∃ r, SimpleVector.Reserve
            ({ items_ := [1, 2], size_ := 2, capacity_ := 2 } : SimpleVector Int) (twice 2) = .ok r
          ∧ 2 < r.GetCapacity ∧ r.GetSize < r.GetCapacity
          ∧ ∃ w, SimpleVector.PushBack 1 r (.val 5) = .ok w
              ∧ SimpleVector.PushBack 2
                  ({ items_ := [1, 2], size_ := 2, capacity_ := 2 } : SimpleVector Int) (.val 5)
                = .ok w)
    ∧ (∃ w, SimpleVector.PushBack 1
        ({ items_ := [1, 2, 0, 0], size_ := 2, capacity_ := 4 } : SimpleVector Int) (.val 5)
          = .ok w) :=
  ⟨(PushBack_single_retry
      ({ items_ := [1, 2], size_ := 2, capacity_ := 2 } : SimpleVector Int) 5
      (by decide) (by decide)).2.1 (by decide) (by decide),
   (PushBack_single_retry
      ({ items_ := [1, 2, 0, 0], size_ := 2, capacity_ := 4 } : SimpleVector Int) 5
      (by decide) (by decide)).1 (Or.inl (by decide))⟩

section Compare
variable {T : Type}
open SimpleVector

theorem lexicographical_compare_iff [LinearOrder T] (xs : List T) :
    ∀ ys : List T, lexicographical_compare xs ys = true ↔ lexLess xs ys := by
  induction xs with
  | nil =>
    intro ys
    cases ys <;> simp [lexicographical_compare, lexLess]
  | cons x xs ih =>
    intro ys
    cases ys with
    | nil => simp [lexicographical_compare, lexLess]
    | cons y ys =>
      simp only [lexicographical_compare, lexLess]
      by_cases h1 : x < y
      · simp [h1]
      · by_cases h2 : y < x
        · have hne : x ≠ y := fun h => by rw [h] at h2; exact lt_irrefl _ h2
          simp [h1, h2, hne]
        · have heq : x = y := le_antisymm (not_lt.mp h2) (not_lt.mp h1)
          simp [h1, h2, heq, ih ys]

theorem index_get (v : SimpleVector T) (i : Nat) (h : v.size_ ≤ v.items_.length)
    (hi : i < v.size_) :
    index v i = .ok ((toList v).get ⟨i, by rw [toList_length v h]; exact hi⟩) := by
  have hl : i < v.items_.length := by omega
  simp [index, toList, ArrayPtr.read, hl, List.getElem_take]

theorem toList_eq_iff_index (a b : SimpleVector T) (ha : a.size_ ≤ a.items_.length)
    (hb : b.size_ ≤ b.items_.length) :
    toList a = toList b ↔ (a.size_ = b.size_ ∧ ∀ i, i < a.size_ → index a i = index b i) := by
  constructor
  · intro h
    have hs : a.size_ = b.size_ := by
      have := congrArg List.length h
      rwa [toList_length a ha, toList_length b hb] at this
    refine ⟨hs, fun i hi => ?_⟩
    rw [index_toList a i ha hi, index_toList b i hb (by omega), h]
  · rintro ⟨hs, hidx⟩
    apply List.ext_get
    · rw [toList_length a ha, toList_length b hb, hs]
    · intro i h1 h2
      have hi : i < a.size_ := by rwa [toList_length a ha] at h1
      have := hidx i hi
      rw [index_get a i ha hi, index_get b i hb (by omega)] at this
      exact Except.ok.inj this

end Compare

/-- C18: for two vectors whose elements lie inside their buffers, over a
linearly ordered element type, `a == b` returns and is true exactly when the
sizes agree and `a[i] == b[i]` for every `i` below the size, that is exactly
when the logical sequences are equal (the capacities and the slots from the
size on play no part); `a < b` returns and is true exactly when the logical
sequence of `a` is lexicographically less than that of `b`, a proper prefix
being less; and an object compares equal to itself. -/
theorem comparisons_on_sequences {T : Type} [LinearOrder T] (a b : SimpleVector T)
    (ha : a.size_ ≤ a.items_.length) (hb : b.size_ ≤ b.items_.length) :
    (∃ e, SimpleVector.opEq false a b = .ok e
        ∧ (e = true ↔ (a.GetSize = b.GetSize ∧ ∀ i, i < a.GetSize → a.index i = b.index i))
        ∧ (e = true ↔ a.toList = b.toList))
    ∧ (∃ l, SimpleVector.opLt a b = .ok l
        ∧ (l = true ↔ SimpleVector.lexLess a.toList b.toList))
    ∧ SimpleVector.opEq true a a = .ok true := by
  refine ⟨⟨_, opEq_distinct a b ha hb, ?_, ?_⟩,
    ⟨SimpleVector.lexicographical_compare (a.items_.take a.size_) (b.items_.take b.size_),
      ?_, ?_⟩, ?_⟩
  · rw [decide_eq_true_iff]
    exact toList_eq_iff_index a b ha hb
  · rw [decide_eq_true_iff]
  · simp only [SimpleVector.opLt, ha, hb, and_self, if_true, pure, Except.pure]
  · exact lexicographical_compare_iff _ _
  · simp [SimpleVector.opEq, pure, Except.pure]

theorem comparisons_on_sequences_witness :
    (∃ e, SimpleVector.opEq false
          ({ items_ := [1, 2, 7, 7], size_ := 2, capacity_ := 4 } : SimpleVector Int)
          { items_ := [1, 2, 3], size_ := 3, capacity_ := 3 } = .ok e
        ∧ (e = true ↔ (SimpleVector.GetSize
              ({ items_ := [1, 2, 7, 7], size_ := 2, capacity_ := 4 } : SimpleVector Int)
              = SimpleVector.GetSize
                ({ items_ := [1, 2, 3], size_ := 3, capacity_ := 3 } : SimpleVector Int)
            ∧ ∀ i, i < SimpleVector.GetSize
                ({ items_ := [1, 2, 7, 7], size_ := 2, capacity_ := 4 } : SimpleVector Int) →
              SimpleVector.index
                ({ items_ := [1, 2, 7, 7], size_ := 2, capacity_ := 4 } : SimpleVector Int) i
              = SimpleVector.index
                ({ items_ := [1, 2, 3], size_ := 3, capacity_ := 3 } : SimpleVector Int) i))
        ∧ (e = true ↔ SimpleVector.toList
              ({ items_ := [1, 2, 7, 7], size_ := 2, capacity_ := 4 } : SimpleVector Int)
            = SimpleVector.toList
              ({ items_ := [1, 2, 3], size_ := 3, capacity_ := 3 } : SimpleVector Int)))
    ∧ (∃ l, SimpleVector.opLt
          ({ items_ := [1, 2, 7, 7], size_ := 2, capacity_ := 4 } : SimpleVector Int)
          { items_ := [1, 2, 3], size_ := 3, capacity_ := 3 } = .ok l
        ∧ (l = true ↔ SimpleVector.lexLess
              (SimpleVector.toList
                ({ items_ := [1, 2, 7, 7], size_ := 2, capacity_ := 4 } : SimpleVector Int))
              (SimpleVector.toList
                ({ items_ := [1, 2, 3], size_ := 3, capacity_ := 3 } : SimpleVector Int))))
    ∧ SimpleVector.opEq true
        ({ items_ := [1, 2, 7, 7], size_ := 2, capacity_ := 4 } : SimpleVector Int)
        { items_ := [1, 2, 7, 7], size_ := 2, capacity_ := 4 } = .ok true :=
  comparisons_on_sequences
    ({ items_ := [1, 2, 7, 7], size_ := 2, capacity_ := 4 } : SimpleVector Int)
    { items_ := [1, 2, 3], size_ := 3, capacity_ := 3 } (by decide) (by decide)

section Inv
variable {T : Type}
open SimpleVector

theorem copyRange_ok_inv (src : List T) (first last : Nat) (dst : List T) (d : Nat) (r : List T)
    (h : copyRange src first last dst d = .ok r) :
    first ≤ last ∧ last ≤ src.length ∧ d + (last - first) ≤ dst.length
      ∧ r.length = dst.length := by
  unfold copyRange at h
  split at h
  · next hc =>
    obtain ⟨c1, c2, c3⟩ := hc
    refine ⟨c1, c2, c3, ?_⟩
    cases h
    simp
    omega
  · cases h

theorem write_ok_inv (buf : List T) (i : Nat) (x : T) (r : List T)
    (h : ArrayPtr.write buf i x = .ok r) : i < buf.length ∧ r.length = buf.length := by
  unfold ArrayPtr.write at h
  split at h
  · next hc => cases h; exact ⟨hc, by simp⟩
  · cases h

theorem sized_ok_inv [Inhabited T] (n : Nat) (w : SimpleVector T) (h : sized n = .ok w) :
    w.size_ = n ∧ w.capacity_ = n ∧ w.items_.length = n := by
  rw [sized_ok] at h
  cases h
  simp

theorem Resize_inv [Inhabited T] (v w : SimpleVector T) (n : Nat) (h : Resize v n = .ok w)
    (hv : v.size_ ≤ v.capacity_) : w.size_ ≤ w.capacity_ ∧ v.capacity_ ≤ w.capacity_ := by
  unfold Resize at h
  split at h
  · cases h; exact ⟨hv, le_refl _⟩
  · split at h
    · cases h
      exact ⟨by simp only []; omega, le_refl _⟩
    · split at h
      · obtain ⟨items, _, h⟩ := bind_ok_inv h
        cases h
        exact ⟨by simp only []; omega, le_refl _⟩
      · split at h
        · next hgt =>
          obtain ⟨temp, ht, h⟩ := bind_ok_inv h
          obtain ⟨moved, _, h⟩ := bind_ok_inv h
          obtain ⟨t1, t2, _⟩ := sized_ok_inv _ _ ht
          cases h
          simp only [swap]
          rw [t1, t2]
          exact ⟨le_refl _, le_trans (le_of_lt hgt) (le_max_left _ _)⟩
        · cases h; exact ⟨hv, le_refl _⟩

theorem Reserve_inv [Inhabited T] (v w : SimpleVector T) (c : Nat) (h : Reserve v c = .ok w) :
    w.size_ = v.size_ ∧ v.capacity_ ≤ w.capacity_ ∧ (v.capacity_ < c → w.capacity_ = c) := by
  unfold Reserve at h
  split at h
  · next hgt =>
    obtain ⟨temp, ht, h⟩ := bind_ok_inv h
    obtain ⟨moved, _, h⟩ := bind_ok_inv h
    obtain ⟨_, t2, _⟩ := sized_ok_inv _ _ ht
    cases h
    exact ⟨rfl, by simp only []; omega, fun _ => t2⟩
  · next hle =>
    cases h
    exact ⟨rfl, le_refl _, fun h => absurd h hle⟩

theorem PushBack_inv [Inhabited T] (fuel : Nat) :
    ∀ (item : ConstRef T) (v w : SimpleVector T), PushBack fuel v item = .ok w →
      v.size_ ≤ v.capacity_ → w.size_ ≤ w.capacity_ := by
  induction fuel with
  | zero =>
    intro item v w h _
    simp [PushBack] at h
  | succ f ih =>
    intro item v w h hv
    have key : ∀ (item1 : ConstRef T) (v1 : SimpleVector T), v1.size_ ≤ v1.capacity_ →
        (if v1.size_ < v1.capacity_ then do
            let x ← item1.read v1.items_
            let items ← ArrayPtr.write v1.items_ v1.size_ x
            pure { v1 with items_ := items, size_ := v1.size_ + 1 }
          else if v1.size_ = v1.capacity_ then do
            let v2 ← Reserve v1 (twice v1.capacity_)
            PushBack f v2 (refAfterReserve v1 (twice v1.capacity_) item1)
          else pure v1) = .ok w → w.size_ ≤ w.capacity_ := by
      intro item1 v1 hv1 h
      split at h
      · next hlt =>
        obtain ⟨x, _, h⟩ := bind_ok_inv h
        obtain ⟨items, _, h⟩ := bind_ok_inv h
        cases h
        simp only []
        omega
      · split at h
        · obtain ⟨v2, h2, h⟩ := bind_ok_inv h
          obtain ⟨e1, e2, _⟩ := Reserve_inv _ _ _ h2
          exact ih _ v2 w h (by omega)
        · cases h; exact hv1
    rw [PushBack] at h
    simp only [] at h
    split at h
    · obtain ⟨v1, h1, h⟩ := bind_ok_inv h
      obtain ⟨e1, e2, _⟩ := Reserve_inv _ _ _ h1
      exact key _ v1 (by omega) h
    · obtain ⟨v1, h1, h⟩ := bind_ok_inv h
      cases h1
      exact key _ v hv h

end Inv

section Inv2
variable {T : Type}
open SimpleVector

theorem Insert_inv [Inhabited T] (fuel : Nat) (v w : SimpleVector T) (idx i : Nat)
    (value : ConstRef T) (h : SimpleVector.Insert fuel v idx value = .ok (w, i))
    (hv : v.size_ ≤ v.capacity_) : w.size_ ≤ w.capacity_ := by
  have key : ∀ (value1 : ConstRef T) (v1 : SimpleVector T), v1.size_ ≤ v1.capacity_ →
      (if v1.size_ = idx then do
          let w ← PushBack fuel v1 value1
          pure (w, idx)
        else do
          let temp : SimpleVector T ← sized v1.capacity_
          let t1 ← copyRange v1.items_ 0 idx temp.items_ 0
          let x ← value1.read v1.items_
          let t2 ← ArrayPtr.write t1 idx x
          let t3 ← copyRange v1.items_ idx v1.size_ t2 (idx + 1)
          pure ({ v1 with items_ := t3, size_ := v1.size_ + 1 }, idx)) = .ok (w, i) →
      w.size_ ≤ w.capacity_ := by
    intro value1 v1 hv1 h
    split at h
    · obtain ⟨u, hu, h⟩ := bind_ok_inv h
      cases h
      exact PushBack_inv fuel value1 v1 _ hu hv1
    · obtain ⟨temp, ht, h⟩ := bind_ok_inv h
      obtain ⟨t1, h1, h⟩ := bind_ok_inv h
      obtain ⟨x, _, h⟩ := bind_ok_inv h
      obtain ⟨t2, h2, h⟩ := bind_ok_inv h
      obtain ⟨t3, h3, h⟩ := bind_ok_inv h
      obtain ⟨_, _, tl⟩ := sized_ok_inv _ _ ht
      obtain ⟨_, _, _, l1⟩ := copyRange_ok_inv _ _ _ _ _ _ h1
      obtain ⟨_, l2⟩ := write_ok_inv _ _ _ _ h2
      obtain ⟨c1, _, c3, _⟩ := copyRange_ok_inv _ _ _ _ _ _ h3
      cases h
      simp only []
      omega
  rw [SimpleVector.Insert] at h
  simp only [] at h
  split at h
  · obtain ⟨r, hr, h⟩ := bind_ok_inv h
    obtain ⟨_, e2⟩ := Resize_inv _ _ _ hr hv
    exact key _ { r with size_ := v.size_ } (by simp only []; omega) h
  · obtain ⟨v1, h1, h⟩ := bind_ok_inv h
    cases h1
    exact key _ v hv h

theorem Erase_inv (v w : SimpleVector T) (idx i : Nat)
    (h : Erase v idx = .ok (w, i)) (hv : v.size_ ≤ v.capacity_) :
    w.size_ ≤ w.capacity_ := by
  unfold Erase at h
  obtain ⟨items, _, h⟩ := bind_ok_inv h
  cases h
  simp only []
  omega

theorem copyAssign_inv [Inhabited T] [DecidableEq T] (a b : SimpleVector T)
    (p : SimpleVector T × SimpleVector T) (h : copyAssign a b = .ok p)
    (ha : a.size_ ≤ a.capacity_) (hb : b.size_ ≤ b.capacity_) :
    p.1.size_ ≤ p.1.capacity_ ∧ p.2.size_ ≤ p.2.capacity_ := by
  unfold copyAssign at h
  obtain ⟨ne, _, h⟩ := bind_ok_inv h
  split at h
  · obtain ⟨a1, h1, h⟩ := bind_ok_inv h
    obtain ⟨items, _, h⟩ := bind_ok_inv h
    obtain ⟨e1, _⟩ := Resize_inv _ _ _ h1 ha
    cases h
    exact ⟨e1, hb⟩
  · cases h
    exact ⟨ha, hb⟩

theorem moveAssign_inv [DecidableEq T] (a b : SimpleVector T)
    (p : SimpleVector T × SimpleVector T) (h : moveAssign a b = .ok p)
    (ha : a.size_ ≤ a.capacity_) (hb : b.size_ ≤ b.capacity_) :
    p.1.size_ ≤ p.1.capacity_ ∧ p.2.size_ ≤ p.2.capacity_ := by
  unfold moveAssign at h
  obtain ⟨ne, _, h⟩ := bind_ok_inv h
  split at h
  · cases h
    exact ⟨hb, ha⟩
  · cases h
    exact ⟨ha, hb⟩

theorem swapRvalue_inv (a b : SimpleVector T) (p : SimpleVector T × SimpleVector T)
    (h : swapRvalue a b = .ok p) (ha : a.size_ ≤ a.capacity_) (hb : b.size_ ≤ b.capacity_) :
    p.1.size_ ≤ p.1.capacity_ ∧ p.2.size_ ≤ p.2.capacity_ := by
  unfold swapRvalue at h
  obtain ⟨items, _, h⟩ := bind_ok_inv h
  cases h
  exact ⟨hb, ha⟩

theorem Resize_valid [Inhabited T] (v : SimpleVector T) (n : Nat) (hv : Valid v) :
    ∃ w, Resize v n = .ok w ∧ Valid w ∧ n ≤ w.size_ := by
  obtain ⟨h1, h2⟩ := hv
  rcases Nat.lt_trichotomy n v.size_ with hlt | heq | hgt
  · exact ⟨_, Resize_shrink v n hlt, ⟨by simp only []; omega, h2⟩, le_refl _⟩
  · subst heq
    exact ⟨v, Resize_same v, ⟨h1, h2⟩, le_refl _⟩
  · by_cases hle : n ≤ v.capacity_
    · refine ⟨_, Resize_fill v n hgt hle h2, ⟨hle, ?_⟩, le_refl _⟩
      simp
      omega
    · refine ⟨_, Resize_grow v n h1 (by omega) (by omega), ⟨le_refl _, ?_⟩, le_max_left _ _⟩
      have := le_max_left n (twice v.capacity_)
      simp
      omega

theorem copyAssign_returns [Inhabited T] [DecidableEq T] (a b : SimpleVector T)
    (ha : Valid a) (hb : b.size_ ≤ b.items_.length) : ∃ p, copyAssign a b = .ok p := by
  obtain ⟨w, hw, hvw, hn⟩ := Resize_valid a b.size_ ha
  have hl : b.size_ ≤ w.items_.length := le_trans hn (le_trans hvw.1 hvw.2)
  by_cases he : toList a = toList b
  · exact ⟨(a, b), by
      simp [copyAssign, opNe, opEq_distinct a b (le_trans ha.1 ha.2) hb, he, bind, Except.bind,
        pure, Except.pure]⟩
  · exact ⟨({ w with items_ := b.items_.take b.size_ ++ w.items_.drop b.size_ }, b), by
      simp only [copyAssign, opNe, opEq_distinct a b (le_trans ha.1 ha.2) hb, he, hw,
        copyRange_front _ _ _ hb hl, bind, Except.bind, pure, Except.pure, decide_False,
        Bool.not_false, if_true]⟩

end Inv2

section Inv3
variable {T : Type}
open SimpleVector

theorem fromList_ok (fresh : T) (init : List T) :
    fromList fresh init
      = .ok { items_ := init, size_ := init.length, capacity_ := init.length } := by
  have h : init.length ≤ (List.replicate init.length fresh).length := by simp
  simp [fromList, ArrayPtr.alloc, copyRange_front _ _ _ (le_refl init.length) h, bind,
    Except.bind, pure, Except.pure]

theorem ofReserve_ok [Inhabited T] (c : Nat) :
    ∃ w : SimpleVector T, ofReserve c = .ok w ∧ w.size_ = 0 ∧ w.capacity_ = c
      ∧ w.items_.length = c := by
  rcases Nat.eq_zero_or_pos c with h0 | hpos
  · subst h0
    exact ⟨empty, Reserve_keep empty 0 (le_refl _), rfl, rfl, rfl⟩
  · refine ⟨_, Reserve_grow empty c (le_refl _) (Nat.zero_le _) hpos, rfl, rfl, ?_⟩
    simp [empty]

theorem moveAssign_returns [DecidableEq T] (a b : SimpleVector T)
    (ha : a.size_ ≤ a.items_.length) (hb : b.size_ ≤ b.items_.length) :
    ∃ p, moveAssign a b = .ok p := by
  by_cases he : toList a = toList b
  · exact ⟨(a, b), by
      simp [moveAssign, opNe, opEq_distinct a b ha hb, he, bind, Except.bind, pure,
        Except.pure]⟩
  · exact ⟨(b, a), by
      simp [moveAssign, opNe, opEq_distinct a b ha hb, he, swap, bind, Except.bind, pure,
        Except.pure]⟩

theorem swapRvalue_returns (a b : SimpleVector T)
    (hb : b.size_ ≤ b.items_.length) (hab : b.size_ ≤ a.items_.length) :
    ∃ p, swapRvalue a b = .ok p :=
  ⟨({ items_ := b.items_.take b.size_ ++ a.items_.drop b.size_, size_ := b.size_,
       capacity_ := b.capacity_ },
     { items_ := b.items_, size_ := a.size_, capacity_ := a.capacity_ }), by
    simp only [swapRvalue, copyRange_front _ _ _ hb hab, bind, Except.bind, pure, Except.pure]⟩

end Inv3

/-- C15: the size never exceeds the recorded capacity.  Every constructor
(default, sized, sized with a value, copy, move, initializer list, `Reserve`
proxy) returns a vector with `GetSize() ≤ GetCapacity()`.  For vectors `a`, `b`
with `GetSize() ≤ GetCapacity()`, whatever copy or move assignment, `Clear`,
`Resize`, `Reserve`, `PushBack`, `PopBack`, `Insert`, `Erase` and the two `swap`
overloads return satisfies it again, for every vector involved (for `PushBack`
and `Insert` whatever the item refers to).  And on valid vectors (capacity
below `2 ^ 63`, positions in range, item outside the vector) these operations
do return. -/
theorem size_le_capacity_kept {T : Type} [Inhabited T] [DecidableEq T] (fresh : T)
    (fuel n c idx : Nat) (x : T) (item : ConstRef T) (init : List T) (a b : SimpleVector T)
    (ha : a.GetSize ≤ a.GetCapacity) (hb : b.GetSize ≤ b.GetCapacity) :
    ((SimpleVector.empty : SimpleVector T).GetSize
        ≤ (SimpleVector.empty : SimpleVector T).GetCapacity
      ∧ (∃ w : SimpleVector T, SimpleVector.sized n = .ok w ∧ w.GetSize ≤ w.GetCapacity)
      ∧ (∃ w, SimpleVector.sizedValue n x = .ok w ∧ w.GetSize ≤ w.GetCapacity)
      ∧ (∀ w, SimpleVector.copyConstruct fresh a = .ok w → w.GetSize ≤ w.GetCapacity)
      ∧ ((SimpleVector.moveConstruct a).1.GetSize ≤ (SimpleVector.moveConstruct a).1.GetCapacity
          ∧ (SimpleVector.moveConstruct a).2.GetSize
              ≤ (SimpleVector.moveConstruct a).2.GetCapacity)
      ∧ (∃ w, SimpleVector.fromList fresh init = .ok w ∧ w.GetSize ≤ w.GetCapacity)
      ∧ (∃ w : SimpleVector T, SimpleVector.ofReserve c = .ok w ∧ w.GetSize ≤ w.GetCapacity))
    ∧ ((∀ p, SimpleVector.copyAssign a b = .ok p →
          p.1.GetSize ≤ p.1.GetCapacity ∧ p.2.GetSize ≤ p.2.GetCapacity)
      ∧ (∀ p, SimpleVector.moveAssign a b = .ok p →
          p.1.GetSize ≤ p.1.GetCapacity ∧ p.2.GetSize ≤ p.2.GetCapacity)
      ∧ (∀ w, SimpleVector.Clear a = .ok w → w.GetSize ≤ w.GetCapacity)
      ∧ (∀ w, SimpleVector.Resize a n = .ok w → w.GetSize ≤ w.GetCapacity)
      ∧ (∀ w, SimpleVector.Reserve a c = .ok w → w.GetSize ≤ w.GetCapacity)
      ∧ (∀ w, SimpleVector.PushBack fuel a item = .ok w → w.GetSize ≤ w.GetCapacity)
      ∧ (SimpleVector.PopBack a).GetSize ≤ (SimpleVector.PopBack a).GetCapacity
      ∧ (∀ w i, SimpleVector.Insert fuel a idx item = .ok (w, i) → w.GetSize ≤ w.GetCapacity)
      ∧ (∀ w i, SimpleVector.Erase a idx = .ok (w, i) → w.GetSize ≤ w.GetCapacity)
      ∧ ((SimpleVector.swap a b).1.GetSize ≤ (SimpleVector.swap a b).1.GetCapacity
          ∧ (SimpleVector.swap a b).2.GetSize ≤ (SimpleVector.swap a b).2.GetCapacity)
      ∧ (∀ p, SimpleVector.swapRvalue a b = .ok p →
          p.1.GetSize ≤ p.1.GetCapacity ∧ p.2.GetSize ≤ p.2.GetCapacity))
    ∧ (a.Valid → b.Valid → a.capacity_ < 2 ^ 63 → 2 ≤ fuel →
        (∃ w, SimpleVector.copyConstruct fresh a = .ok w)
        ∧ (∃ p, SimpleVector.copyAssign a b = .ok p)
        ∧ (∃ p, SimpleVector.moveAssign a b = .ok p)
        ∧ (∃ w, SimpleVector.Clear a = .ok w)
        ∧ (∃ w, SimpleVector.Resize a n = .ok w)
        ∧ (∃ w, SimpleVector.Reserve a c = .ok w)
        ∧ (∃ w, SimpleVector.PushBack fuel a (.val x) = .ok w)
        ∧ (idx ≤ a.GetSize → ∃ w, SimpleVector.Insert fuel a idx (.val x) = .ok (w, idx))
        ∧ (idx < a.GetSize → ∃ w, SimpleVector.Erase a idx = .ok (w, idx))
        ∧ (b.GetSize ≤ a.items_.length → ∃ p, SimpleVector.swapRvalue a b = .ok p)) := by
  have ha2 : a.size_ ≤ a.capacity_ := ha
  have hb2 : b.size_ ≤ b.capacity_ := hb
  simp only [SimpleVector.GetSize, SimpleVector.GetCapacity]
  refine ⟨⟨le_refl _, ⟨_, sized_ok n, le_refl _⟩, ⟨_, sizedValue_ok n x, le_refl _⟩, ?_,
      ⟨ha2, le_refl _⟩, ⟨_, fromList_ok fresh init, le_refl _⟩, ?_⟩,
    ⟨fun p h => copyAssign_inv a b p h ha2 hb2, fun p h => moveAssign_inv a b p h ha2 hb2,
      fun w h => (Resize_inv a w 0 h ha2).1, fun w h => (Resize_inv a w n h ha2).1, ?_,
      fun w h => PushBack_inv fuel item a w h ha2, ?_,
      fun w i h => Insert_inv fuel a w idx i item h ha2, fun w i h => Erase_inv a w idx i h ha2,
      ⟨hb2, ha2⟩, fun p h => swapRvalue_inv a b p h ha2 hb2⟩, ?_⟩
  · intro w h
    unfold SimpleVector.copyConstruct at h
    obtain ⟨items, _, h⟩ := bind_ok_inv h
    cases h
    exact ha2
  · obtain ⟨w, hw, hs, _, _⟩ := @ofReserve_ok T _ c
    exact ⟨w, hw, by rw [hs]; exact Nat.zero_le _⟩
  · intro w h
    obtain ⟨e1, e2, _⟩ := Reserve_inv a w c h
    omega
  · unfold SimpleVector.PopBack
    split
    · exact ha2
    · simp only []
      omega
  · intro hva hvb hc hf
    obtain ⟨f, rfl⟩ : ∃ f, fuel = f + 2 := ⟨fuel - 2, by omega⟩
    have hal : a.size_ ≤ a.items_.length := le_trans hva.1 hva.2
    have hbl : b.size_ ≤ b.items_.length := le_trans hvb.1 hvb.2
    refine ⟨⟨_, copyConstruct_ok fresh a ha2 hal⟩, copyAssign_returns a b hva hbl,
      moveAssign_returns a b hal hbl, ?_, ?_, ?_, ?_, fun hi => ?_, fun hi => ?_, fun hab => ?_⟩
    · obtain ⟨w, hw, _⟩ := Resize_valid a 0 hva
      exact ⟨w, hw⟩
    · obtain ⟨w, hw, _⟩ := Resize_valid a n hva
      exact ⟨w, hw⟩
    · by_cases hle : c ≤ a.capacity_
      · exact ⟨a, Reserve_keep a c hle⟩
      · exact ⟨_, Reserve_grow a c ha2 hal (by omega)⟩
    · obtain ⟨w, hw, _⟩ := PushBack_spec f a x hva (fun _ => hc)
      exact ⟨w, hw⟩
    · obtain ⟨w, hw, _⟩ := Insert_spec (f + 1) a idx x hva hc hi
      exact ⟨w, hw⟩
    · obtain ⟨w, hw, _⟩ := Erase_spec a idx hal hi
      exact ⟨w, hw⟩
    · exact swapRvalue_returns a b hbl hab

theorem size_le_capacity_kept_witness :
    (∃ w, SimpleVector.PushBack 2
        ({ items_ := [1, 2], size_ := 2, capacity_ := 2 } : SimpleVector Int) (.val 5) = .ok w)
    ∧ (∀ w, SimpleVector.PushBack 2
        ({ items_ := [1, 2], size_ := 2, capacity_ := 2 } : SimpleVector Int) (.val 5) = .ok w →
          w.GetSize ≤ w.GetCapacity)
    ∧ (∀ p, SimpleVector.swapRvalue
        ({ items_ := [1, 2], size_ := 2, capacity_ := 2 } : SimpleVector Int)
        { items_ := [7, 0, 0], size_ := 1, capacity_ := 3 } = .ok p →
          p.1.GetSize ≤ p.1.GetCapacity ∧ p.2.GetSize ≤ p.2.GetCapacity) :=
  have h := size_le_capacity_kept (0 : Int) 2 3 8 1 5 (.val 5) [1, 2]
    { items_ := [1, 2], size_ := 2, capacity_ := 2 }
    { items_ := [7, 0, 0], size_ := 1, capacity_ := 3 } (by decide) (by decide)
  ⟨(h.2.2 (by decide) (by decide) (by decide) (by decide)).2.2.2.2.2.2.1,
    h.2.1.2.2.2.2.2.1, h.2.1.2.2.2.2.2.2.2.2.2.2⟩

end SimpleVec
